import Mathlib

/-! # mod-resolve: pseudo-version synthesis

A shallow embedding of `main.go` (functions `ShortenSHA1`, `AllHex`,
`PseudoVersion`, `incDecimal`) together with the parts of the imported
packages `golang.org/x/mod/semver` and `time` that `PseudoVersion` calls.

A Go `string` / `[]byte` is modelled as the list of its bytes, each byte a
natural number (`Bytes`).  An index or slice operation that would panic in Go
makes the embedded function return `none`.
-/

namespace ModResolve

/-- A Go string or byte slice: the list of its bytes. -/
abbrev Bytes := List Nat

/-- The bytes of an ASCII string literal. -/
def str (s : String) : Bytes := s.toList.map Char.toNat

/-! ## `ShortenSHA1` and `AllHex` (main.go 51-70) -/

/-- The function `AllHex` of main.go: the loop over the bytes of `rev`, returning
`false` at the first byte outside `'0'..'9'` and `'a'..'f'`. -/
def AllHex : Bytes → Bool
  | [] => true
  | c :: rest =>
    if (48 ≤ c ∧ c ≤ 57) ∨ (97 ≤ c ∧ c ≤ 102) then AllHex rest else false

/-- The function `ShortenSHA1` of main.go. -/
def ShortenSHA1 (rev : Bytes) : Bytes :=
  if AllHex rev && rev.length == 40 then rev.take 12 else rev

/-! ## `incDecimal` (main.go 100-116) -/

/-- The `for` loop of `incDecimal`.  The second argument is `i + 1` for the
loop variable `i` of the source (so `0` stands for `i = -1`); the result is
the slice and `i + 1` at loop exit. -/
def incLoop (digits : Bytes) : Nat → Bytes × Nat
  | 0 => (digits, 0)
  | j + 1 =>
    if digits.getD j 0 = 57 then incLoop (digits.set j 48) j else (digits, j + 1)

/-- The function `incDecimal` of main.go.  `none` is the index-out-of-range panic of
`digits[0] = '1'` on an empty slice. -/
def incDecimal (decimal : Bytes) : Option Bytes :=
  match incLoop decimal decimal.length with
  | (digits, j + 1) => some (digits.set j ((digits.getD j 0 + 1) % 256))
  | (digits, 0) =>
    if digits.length = 0 then none
    else some (digits.set 0 49 ++ [48])

/-! ## The imported package `golang.org/x/mod/semver` (main.go 14)

`PseudoVersion` calls `semver.Build`, `semver.Canonical` and
`semver.Prerelease`; the ordering claims are about `semver.Compare`.  The
package is imported, its source is not part of this repository; what follows
transcribes its functions one by one.  Its index loops (`i`, `start`) become
recursion over the unread bytes, the identifier `v[start:i]` read so far being
carried along as `cur`. -/

/-- The record `parsed` of package semver. -/
structure parsed where
  major : Bytes
  minor : Bytes
  patch : Bytes
  short : Bytes
  prerelease : Bytes
  build : Bytes
  deriving DecidableEq

/-- The function `isIdentChar` of package semver: `[0-9A-Za-z-]`. -/
def isIdentChar (c : Nat) : Bool :=
  (65 ≤ c ∧ c ≤ 90) ∨ (97 ≤ c ∧ c ≤ 122) ∨ (48 ≤ c ∧ c ≤ 57) ∨ c = 45

/-- The loop `for i < len(v) && '0' <= v[i] && v[i] <= '9' { i++ }` started at
the head of its argument: the length of the leading run of digits. -/
def digitRun : Bytes → Nat
  | [] => 0
  | c :: rest => if 48 ≤ c ∧ c ≤ 57 then digitRun rest + 1 else 0

/-- The function `isBadNum` of package semver: all digits, longer than one,
leading zero. -/
def isBadNum (v : Bytes) : Bool :=
  digitRun v == v.length && decide (1 < digitRun v) && v.head? == some 48

/-- The function `isNum` of package semver. -/
def isNum (v : Bytes) : Bool := digitRun v == v.length

/-- The function `parseInt` of package semver: `(t, rest)` on success. -/
def parseInt (v : Bytes) : Option (Bytes × Bytes) :=
  match v with
  | [] => none
  | c :: tl =>
    if c < 48 ∨ 57 < c then none
    else
      let i := 1 + digitRun tl
      if c = 48 ∧ i ≠ 1 then none else some (v.take i, v.drop i)

/-- The loop of `parsePrerelease`: the number of bytes read up to the end of
the input or the first `'+'`, `none` when the label is rejected. -/
def preLoop : Bytes → Bytes → Option Nat
  | [], cur => if cur = [] ∨ isBadNum cur = true then none else some 0
  | c :: cs, cur =>
    if c = 43 then (if cur = [] ∨ isBadNum cur = true then none else some 0)
    else if isIdentChar c = false ∧ c ≠ 46 then none
    else if c = 46 then
      (if cur = [] ∨ isBadNum cur = true then none
       else (preLoop cs []).map (· + 1))
    else (preLoop cs (cur ++ [c])).map (· + 1)

/-- The function `parsePrerelease` of package semver. -/
def parsePrerelease (v : Bytes) : Option (Bytes × Bytes) :=
  match v with
  | 45 :: body => (preLoop body []).map (fun n => (v.take (n + 1), v.drop (n + 1)))
  | _ => none

/-- The loop of `parseBuild`: it reads to the end of the input; the result is
whether the metadata is accepted. -/
def buildLoop : Bytes → Bytes → Bool
  | [], cur => decide (cur ≠ [])
  | c :: cs, cur =>
    if isIdentChar c = false ∧ c ≠ 46 then false
    else if c = 46 then (if cur = [] then false else buildLoop cs [])
    else buildLoop cs (cur ++ [c])

/-- The function `parseBuild` of package semver. -/
def parseBuild (v : Bytes) : Option (Bytes × Bytes) :=
  match v with
  | 43 :: body => if buildLoop body [] then some (v, []) else none
  | _ => none

/-- The function `parse` of package semver. -/
def parse (v : Bytes) : Option parsed :=
  match v with
  | [] => none
  | c :: v1 =>
    if c ≠ 118 then none
    else match parseInt v1 with
    | none => none
    | some (major, []) =>
      some ⟨major, str "0", str "0", str ".0.0", [], []⟩
    | some (major, c2 :: v3) =>
      if c2 ≠ 46 then none
      else match parseInt v3 with
      | none => none
      | some (minor, []) => some ⟨major, minor, str "0", str ".0", [], []⟩
      | some (minor, c4 :: v5) =>
        if c4 ≠ 46 then none
        else match parseInt v5 with
        | none => none
        | some (patch, v6) =>
          match (if v6.head? = some 45 then parsePrerelease v6 else some ([], v6)) with
          | none => none
          | some (pre, v7) =>
            match (if v7.head? = some 43 then parseBuild v7 else some ([], v7)) with
            | none => none
            | some (build, v8) =>
              if v8 ≠ [] then none else some ⟨major, minor, patch, [], pre, build⟩

/-- The Go function `semver.IsValid`. -/
def IsValid (v : Bytes) : Bool := (parse v).isSome

/-- The Go function `semver.Canonical`. -/
def Canonical (v : Bytes) : Bytes :=
  match parse v with
  | none => []
  | some p =>
    if p.build ≠ [] then v.take (v.length - p.build.length)
    else if p.short ≠ [] then v ++ p.short
    else v

/-- The Go function `semver.Prerelease`. -/
def Prerelease (v : Bytes) : Bytes :=
  match parse v with
  | none => []
  | some p => p.prerelease

/-- The Go function `semver.Build`. -/
def Build (v : Bytes) : Bytes :=
  match parse v with
  | none => []
  | some p => p.build

/-- Go's `<` on strings: byte-wise lexicographic order. -/
def bytesLt : Bytes → Bytes → Bool
  | _, [] => false
  | [], _ :: _ => true
  | a :: x, b :: y => if a < b then true else if b < a then false else bytesLt x y

/-- The function `compareInt` of package semver. -/
def compareInt (x y : Bytes) : Int :=
  if x = y then 0
  else if x.length < y.length then -1
  else if x.length > y.length then 1
  else if bytesLt x y then -1 else 1

/-- The function `nextIdent` of package semver: split at the first `'.'`. -/
def nextIdent : Bytes → Bytes × Bytes
  | [] => ([], [])
  | c :: cs => if c = 46 then ([], c :: cs) else ((nextIdent cs).1.cons c, (nextIdent cs).2)

/-- The loop of `comparePrerelease` with the code after it.  Every pass drops
at least one byte of `x`, so `x.length` passes are enough. -/
def comparePreLoop : Nat → Bytes → Bytes → Int
  | 0, x, _ => if x = [] then -1 else 1
  | fuel + 1, x, y =>
    if x = [] ∨ y = [] then (if x = [] then -1 else 1)
    else
      let dx := (nextIdent (x.drop 1)).1
      let dy := (nextIdent (y.drop 1)).1
      if dx ≠ dy then
        if isNum dx ≠ isNum dy then (if isNum dx then -1 else 1)
        else if isNum dx = true ∧ dx.length < dy.length then -1
        else if isNum dx = true ∧ dx.length > dy.length then 1
        else if bytesLt dx dy then -1 else 1
      else comparePreLoop fuel (nextIdent (x.drop 1)).2 (nextIdent (y.drop 1)).2

/-- The function `comparePrerelease` of package semver. -/
def comparePrerelease (x y : Bytes) : Int :=
  if x = y then 0
  else if x = [] then 1
  else if y = [] then -1
  else comparePreLoop x.length x y

/-- The Go function `semver.Compare`: semantic-version precedence, as -1, 0 or +1. -/
def Compare (v w : Bytes) : Int :=
  match parse v, parse w with
  | none, none => 0
  | none, some _ => -1
  | some _, none => 1
  | some pv, some pw =>
    if compareInt pv.major pw.major ≠ 0 then compareInt pv.major pw.major
    else if compareInt pv.minor pw.minor ≠ 0 then compareInt pv.minor pw.minor
    else if compareInt pv.patch pw.patch ≠ 0 then compareInt pv.patch pw.patch
    else comparePrerelease pv.prerelease pw.prerelease

/-! ## The imported package `time` (main.go 12)

`PseudoVersion` uses `t.UTC().Format("20060102150405")`.  A `time.Time` is an
instant together with a location; the instant is held as seconds since the Unix
epoch, the location as its offset from UTC.  The seconds are an unbounded
integer here; Go keeps its absolute second in 64 bits and wraps below Unix
second -9223372028741760000, above which the two agree. -/

/-- A `time.Time`: seconds since 1970-01-01T00:00:00Z and the offset, in seconds
east of UTC, of the location the time is shown in. -/
structure Time where
  sec : Int
  offset : Int
  deriving DecidableEq

/-- The Go function `Time.UTC`: the same instant, location UTC. -/
def Time.UTC (t : Time) : Time := ⟨t.sec, 0⟩

/-- The decimal digits of `n`, most significant first; `fuel` bounds the number
of digits. -/
def decFuel : Nat → Nat → Bytes
  | 0, _ => []
  | fuel + 1, n => if n < 10 then [48 + n] else decFuel fuel (n / 10) ++ [48 + n % 10]

/-- The decimal rendering of a natural number, without leading zeros. -/
def dec (n : Nat) : Bytes := decFuel (n + 1) n

/-- The function `appendInt` of package time: `x` in decimal, zero-padded to
`width`, with a leading `'-'` when negative. -/
def appendInt (x : Int) (width : Nat) : Bytes :=
  (if x < 0 then [45] else []) ++
    List.replicate (width - (dec x.natAbs).length) 48 ++ dec x.natAbs

/-- The civil date (year, month, day) of a day number counted from 1970-01-01,
in the proleptic Gregorian calendar. -/
def civil (days : Int) : Int × Int × Int :=
  let z := days + 719468
  let era := z / 146097
  let doe := z % 146097
  let yoe := (doe - doe / 1460 + doe / 36524 - doe / 146096) / 365
  let doy := doe - (365 * yoe + yoe / 4 - yoe / 100)
  let mp := (5 * doy + 2) / 153
  let d := doy - (153 * mp + 2) / 5 + 1
  let m := if mp < 10 then mp + 3 else mp - 9
  let y := yoe + era * 400 + (if m ≤ 2 then 1 else 0)
  (y, m, d)

/-- The Go constant `PseudoVersionTimestampFormat` (main.go 72) as `Time.Format`
reads it: year to four digits, then month, day, hour, minute and second to two each. -/
def Time.Format (t : Time) : Bytes :=
  let wall := t.sec + t.offset
  let date := civil (wall / 86400)
  let rem := wall % 86400
  appendInt date.1 4 ++ appendInt date.2.1 2 ++ appendInt date.2.2 2 ++
    appendInt (rem / 3600) 2 ++ appendInt (rem % 3600 / 60) 2 ++ appendInt (rem % 60) 2

/-! ## `PseudoVersion` (main.go 72-98) -/

/-- The Go function `strings.LastIndex(s, ".")` for a one-byte separator `c`,
scanning with the index `k` of the head and the last match `acc` (-1 when there is none). -/
def lastIndexFrom (c : Nat) : Bytes → Nat → Int → Int
  | [], _, acc => acc
  | x :: xs, k, acc => lastIndexFrom c xs (k + 1) (if x = c then (k : Int) else acc)

/-- The Go function `strings.LastIndex` for a one-byte separator. -/
def LastIndex (s : Bytes) (c : Nat) : Int := lastIndexFrom c s 0 (-1)

/-- The function `PseudoVersion` of main.go.  `none` is a panic (only `incDecimal` can). -/
def PseudoVersion (major older : Bytes) (t : Time) (rev : Bytes) : Option Bytes :=
  let major := if major = [] then str "v0" else major
  let segment := t.UTC.Format ++ str "-" ++ rev
  let build := Build older
  let older := Canonical older
  if older = [] then some (major ++ str ".0.0-" ++ segment)
  else if Prerelease older ≠ [] then some (older ++ str ".0." ++ segment ++ build)
  else
    let i := (LastIndex older 46 + 1).toNat
    let v := older.take i
    let patch := older.drop i
    match incDecimal patch with
    | none => none
    | some p => some (v ++ p ++ str "-0." ++ segment ++ build)

/-! ## Notions the claims are stated with -/

/-- The decimal value of a digit string, most significant digit first. -/
def decVal (d : Bytes) : Nat := d.foldl (fun a c => 10 * a + (c - 48)) 0

/-- Every byte is an ASCII decimal digit. -/
def allDigits (d : Bytes) : Prop := ∀ c ∈ d, 48 ≤ c ∧ c ≤ 57

instance (d : Bytes) : Decidable (allDigits d) := by unfold allDigits; infer_instance

/-- The byte is one of `'0'..'9'`, `'a'..'f'`. -/
def lowerHex (c : Nat) : Prop := (48 ≤ c ∧ c ≤ 57) ∨ (97 ≤ c ∧ c ≤ 102)

instance (c : Nat) : Decidable (lowerHex c) := by unfold lowerHex; infer_instance

/-- A decimal numeral as `parseInt` accepts it: a non-empty string of digits,
without a leading zero unless it is `"0"`. -/
def isNumeral (d : Bytes) : Prop := d ≠ [] ∧ allDigits d ∧ (d.head? = some 48 → d = [48])

instance (d : Bytes) : Decidable (isNumeral d) := by unfold isNumeral; infer_instance

/-- Every byte is one of `[0-9A-Za-z-]`. -/
def identChars (s : Bytes) : Prop := ∀ c ∈ s, isIdentChar c = true

instance (s : Bytes) : Decidable (identChars s) := by unfold identChars; infer_instance

/-- A pre-release label (with its leading `'-'`) that `parsePrerelease` accepts
in full. -/
def validPrerelease (p : Bytes) : Prop := parsePrerelease p = some (p, [])

instance (p : Bytes) : Decidable (validPrerelease p) := by unfold validPrerelease; infer_instance

/-- Build metadata (with its leading `'+'`) that `parseBuild` accepts. -/
def validBuild (b : Bytes) : Prop := parseBuild b = some (b, [])

instance (b : Bytes) : Decidable (validBuild b) := by unfold validBuild; infer_instance

/-- The timestamp-and-revision segment of `PseudoVersion`. -/
def segment (t : Time) (rev : Bytes) : Bytes := t.UTC.Format ++ str "-" ++ rev


/-- The input does not start with a decimal digit. -/
def noDigitHead (rest : Bytes) : Prop := ∀ c, rest.head? = some c → ¬ (48 ≤ c ∧ c ≤ 57)

/-- The identifier read last may end a pre-release label. -/
def endOK (cur : Bytes) : Prop := ¬ (cur = [] ∨ isBadNum cur = true)

/-- The input is empty or starts with `'+'`. -/
def plusOrEnd (b : Bytes) : Prop := b = [] ∨ b.head? = some 43


/-- The version string `"v" X "." Y "." Z PRE B`. -/
def version (X Y Z PRE B : Bytes) : Bytes :=
  str "v" ++ X ++ str "." ++ Y ++ str "." ++ Z ++ PRE ++ B


/-- Identifiers joined by `'.'`. -/
def joinDots : List Bytes → Bytes
  | [] => []
  | [s] => s
  | s :: t :: rest => s ++ 46 :: joinDots (t :: rest)

/-- A pre-release identifier of the semantic-version grammar: non-empty, of
`[0-9A-Za-z-]`, and when numeric without a leading zero. -/
def preIdent (s : Bytes) : Prop :=
  s ≠ [] ∧ identChars s ∧ ¬ (allDigits s ∧ 1 < s.length ∧ s.head? = some 48)

/-- A build identifier of the semantic-version grammar: non-empty, of
`[0-9A-Za-z-]`. -/
def buildIdent (s : Bytes) : Prop := s ≠ [] ∧ identChars s

/-- A pre-release label of the grammar: `'-'` and one or more pre-release
identifiers separated by `'.'`. -/
def grammarPrerelease (p : Bytes) : Prop :=
  ∃ ids : List Bytes, ids ≠ [] ∧ (∀ s ∈ ids, preIdent s) ∧ p = 45 :: joinDots ids

/-- Build metadata of the grammar: `'+'` and one or more build identifiers
separated by `'.'`. -/
def grammarBuild (b : Bytes) : Prop :=
  ∃ ids : List Bytes, ids ≠ [] ∧ (∀ s ∈ ids, buildIdent s) ∧ b = 43 :: joinDots ids

/-- A full version `vMAJOR.MINOR.PATCH[-PRERELEASE][+BUILD]` of the grammar,
with its leading `"v"`. -/
def fullVersion (older : Bytes) : Prop :=
  ∃ X Y Z PRE B : Bytes, isNumeral X ∧ isNumeral Y ∧ isNumeral Z ∧
    (PRE = [] ∨ grammarPrerelease PRE) ∧ (B = [] ∨ grammarBuild B) ∧
    older = str "v" ++ X ++ str "." ++ Y ++ str "." ++ Z ++ PRE ++ B

/-- The shorthand `vMAJOR` or `vMAJOR.MINOR`. -/
def shortVersion (older : Bytes) : Prop :=
  ∃ X : Bytes, isNumeral X ∧
    (older = str "v" ++ X ∨ ∃ Y : Bytes, isNumeral Y ∧ older = str "v" ++ X ++ str "." ++ Y)


/-- The instant 2023-01-02T03:04:05Z. -/
def t2023 : Time := ⟨1672628645, 0⟩

end ModResolve

/-! # Theorems -/

namespace ModResolve

/-! ## `incDecimal` -/

theorem allDigits_append {a b : Bytes} : allDigits (a ++ b) ↔ allDigits a ∧ allDigits b := by
  simp only [allDigits, List.mem_append]
  constructor
  · intro h; exact ⟨fun c hc => h c (Or.inl hc), fun c hc => h c (Or.inr hc)⟩
  · rintro ⟨h1, h2⟩ c (hc | hc)
    · exact h1 c hc
    · exact h2 c hc

theorem allDigits_cons {c : Nat} {b : Bytes} :
    allDigits (c :: b) ↔ (48 ≤ c ∧ c ≤ 57) ∧ allDigits b := by
  simp [allDigits]

theorem allDigits_zeros (k : Nat) : allDigits (List.replicate k 48) := by
  intro c hc
  rw [List.eq_of_mem_replicate hc]; omega

theorem incLoop_nines (p : Bytes) : ∀ (k : Nat) (z : Bytes),
    incLoop (p ++ List.replicate k 57 ++ z) (p.length + k)
      = incLoop (p ++ List.replicate k 48 ++ z) p.length := by
  intro k
  induction k with
  | zero => intro z; simp
  | succ k ih =>
    intro z
    have h1 : p ++ List.replicate (k + 1) 57 ++ z = p ++ List.replicate k 57 ++ 57 :: z := by
      simp [List.replicate_succ', List.append_assoc]
    have h2 : p ++ List.replicate (k + 1) 48 ++ z = p ++ List.replicate k 48 ++ 48 :: z := by
      simp [List.replicate_succ', List.append_assoc]
    rw [h1, h2, ← ih (48 :: z), ← Nat.add_assoc, incLoop]
    have hlen : (p ++ List.replicate k 57).length = p.length + k := by simp
    have hg : (p ++ List.replicate k 57 ++ 57 :: z).getD (p.length + k) 0 = 57 := by
      rw [← hlen, List.getD_append_right _ _ _ _ (le_refl _)]; simp
    have hs : (p ++ List.replicate k 57 ++ 57 :: z).set (p.length + k) 48
        = p ++ List.replicate k 57 ++ 48 :: z := by
      rw [← hlen, List.set_append_right _ _ (le_refl _)]; simp
    rw [if_pos hg, hs]

theorem incLoop_stop (q : Bytes) (c : Nat) (w : Bytes) (hc : c ≠ 57) :
    incLoop (q ++ c :: w) (q.length + 1) = (q ++ c :: w, q.length + 1) := by
  rw [incLoop]
  have hg : (q ++ c :: w).getD q.length 0 = c := by
    rw [List.getD_append_right _ _ _ _ (le_refl _)]; simp
  rw [if_neg (by rw [hg]; exact hc)]

theorem incDecimal_carry (q : Bytes) (c k : Nat) (hc : c ≠ 57) :
    incDecimal (q ++ c :: List.replicate k 57)
      = some (q ++ ((c + 1) % 256) :: List.replicate k 48) := by
  have h := incLoop_nines (q ++ [c]) k []
  simp only [List.append_nil, List.length_append, List.length_singleton, List.append_assoc,
    List.singleton_append] at h
  have h' := incLoop_stop q c (List.replicate k 48) hc
  unfold incDecimal
  have hl : (q ++ c :: List.replicate k 57).length = q.length + 1 + k := by
    simp; omega
  rw [hl, h, h']
  simp only
  have hg : (q ++ c :: List.replicate k 48).getD q.length 0 = c := by
    rw [List.getD_append_right _ _ _ _ (le_refl _)]; simp
  rw [hg, List.set_append_right _ _ (le_refl _)]
  simp

theorem incDecimal_all_nines (n : Nat) :
    incDecimal (List.replicate (n + 1) 57) = some (49 :: List.replicate (n + 1) 48) := by
  have h := incLoop_nines [] (n + 1) []
  simp only [List.append_nil, List.nil_append, List.length_nil, Nat.zero_add] at h
  unfold incDecimal
  rw [List.length_replicate, h, incLoop]
  simp [List.replicate_succ]
  rw [← List.replicate_succ', List.replicate_succ]

theorem nines_or_carry (d : Bytes) :
    (∃ n, d = List.replicate n 57) ∨
    (∃ q c k, c ≠ 57 ∧ d = q ++ c :: List.replicate k 57) := by
  induction d using List.reverseRecOn with
  | nil => exact Or.inl ⟨0, rfl⟩
  | append_singleton xs x ih =>
    by_cases hx : x = 57
    · subst hx
      rcases ih with ⟨n, rfl⟩ | ⟨q, c, k, hc, rfl⟩
      · exact Or.inl ⟨n + 1, by simp [List.replicate_succ']⟩
      · exact Or.inr ⟨q, c, k + 1, hc, by simp [List.replicate_succ']⟩
    · exact Or.inr ⟨xs, x, 0, hx, by simp⟩

theorem decVal_append (a b : Bytes) :
    decVal (a ++ b) = decVal a * 10 ^ b.length + decVal b := by
  induction b using List.reverseRecOn with
  | nil => simp [decVal]
  | append_singleton xs x ih =>
    rw [← List.append_assoc]
    have h1 : ∀ l : Bytes, decVal (l ++ [x]) = 10 * decVal l + (x - 48) := by
      intro l; simp [decVal, List.foldl_append]
    rw [h1, h1, ih, List.length_append, List.length_singleton, pow_succ]
    ring

theorem decVal_zeros (k : Nat) : decVal (List.replicate k 48) = 0 := by
  induction k with
  | zero => rfl
  | succ k ih =>
    rw [List.replicate_succ', decVal_append, ih]; simp [decVal]

theorem decVal_nines (k : Nat) : decVal (List.replicate k 57) + 1 = 10 ^ k := by
  induction k with
  | zero => rfl
  | succ k ih =>
    rw [List.replicate_succ', decVal_append]
    simp only [List.length_singleton, pow_one]
    have : decVal [57] = 9 := by decide
    rw [this, pow_succ]; omega


/-! ## Digits and numerals -/

theorem digitRun_append (d rest : Bytes) (hd : allDigits d) (hr : noDigitHead rest) :
    digitRun (d ++ rest) = d.length := by
  induction d with
  | nil =>
    cases rest with
    | nil => rfl
    | cons c r =>
      have := hr c rfl
      simp [digitRun, this]
  | cons c d ih =>
    have h := allDigits_cons.1 hd
    simp [digitRun, h.1, ih h.2]

theorem digitRun_le (v : Bytes) : digitRun v ≤ v.length := by
  induction v with
  | nil => simp [digitRun]
  | cons c v ih =>
    simp only [digitRun]
    split
    · simp; exact ih
    · simp

theorem digitRun_take (v : Bytes) : allDigits (v.take (digitRun v)) := by
  induction v with
  | nil => intro c hc; simp [digitRun] at hc
  | cons c v ih =>
    simp only [digitRun]
    split
    · rename_i h
      rw [List.take_succ_cons]
      exact allDigits_cons.2 ⟨h, ih⟩
    · intro c hc; simp at hc

theorem digitRun_drop (v : Bytes) : noDigitHead (v.drop (digitRun v)) := by
  induction v with
  | nil => intro c hc; simp [digitRun] at hc
  | cons c v ih =>
    simp only [digitRun]
    split
    · rw [List.drop_succ_cons]; exact ih
    · rename_i h
      intro c' hc'
      simp at hc'
      subst hc'
      exact h

theorem digitRun_eq_length {v : Bytes} : digitRun v = v.length ↔ allDigits v := by
  constructor
  · intro h
    have := digitRun_take v
    rw [h, List.take_length] at this
    exact this
  · intro h
    have := digitRun_append v [] h (by intro c hc; simp at hc)
    simpa using this

theorem parseInt_numeral (n rest : Bytes) (hn : isNumeral n) (hr : noDigitHead rest) :
    parseInt (n ++ rest) = some (n, rest) := by
  obtain ⟨hne, hd, hz⟩ := hn
  cases n with
  | nil => exact absurd rfl hne
  | cons c tl =>
    have h := allDigits_cons.1 hd
    have hrun : digitRun (tl ++ rest) = tl.length := digitRun_append tl rest h.2 hr
    simp only [List.cons_append, parseInt]
    rw [if_neg (by omega), hrun]
    have hz' : ¬ (c = 48 ∧ 1 + tl.length ≠ 1) := by
      rintro ⟨rfl, hl⟩
      have := hz rfl
      simp at this
      subst this
      simp at hl
    rw [if_neg hz']
    have e : 1 + tl.length = (c :: tl).length := by simp; omega
    rw [e, ← List.cons_append, List.take_left, List.drop_left]

theorem parseInt_inv {v t rest : Bytes} (h : parseInt v = some (t, rest)) :
    v = t ++ rest ∧ isNumeral t ∧ noDigitHead rest := by
  cases v with
  | nil => simp [parseInt] at h
  | cons c tl =>
    simp only [parseInt] at h
    split at h
    · exact absurd h (by simp)
    · rename_i hc
      split at h
      · exact absurd h (by simp)
      · rename_i hz
        simp only [Option.some.injEq, Prod.mk.injEq] at h
        obtain ⟨rfl, rfl⟩ := h
        have e : 1 + digitRun tl = digitRun tl + 1 := by omega
        rw [e, List.take_succ_cons, List.drop_succ_cons]
        refine ⟨by simp, ⟨by simp, ?_, ?_⟩, digitRun_drop tl⟩
        · exact allDigits_cons.2 ⟨by omega, digitRun_take tl⟩
        · intro h48
          simp at h48
          subst h48
          have : digitRun tl = 0 := by
            by_contra h0
            exact hz ⟨rfl, by omega⟩
          rw [this]; simp

theorem decFuel_fuel : ∀ (f g n : Nat), n < f → n < g → decFuel f n = decFuel g n := by
  intro f
  induction f with
  | zero => intro g n h; omega
  | succ f ih =>
    intro g n hf hg
    cases g with
    | zero => omega
    | succ g =>
      simp only [decFuel]
      split
      · rfl
      · rw [ih g (n / 10) (by omega) (by omega)]

theorem dec_small (n : Nat) (h : n < 10) : dec n = [48 + n] := by
  simp [dec, decFuel, h]

theorem dec_step (n : Nat) (h : 10 ≤ n) : dec n = dec (n / 10) ++ [48 + n % 10] := by
  have h' : ¬ n < 10 := by omega
  unfold dec
  rw [decFuel, if_neg h', decFuel_fuel n (n / 10 + 1) (n / 10) (by omega) (by omega)]

theorem dec_pos_head : ∀ (n : Nat), 0 < n →
    ∃ c tl, dec n = c :: tl ∧ 49 ≤ c ∧ c ≤ 57 := by
  intro n
  induction n using Nat.strong_induction_on with
  | _ n ih =>
    intro hn
    by_cases h : n < 10
    · exact ⟨48 + n, [], dec_small n h, by omega, by omega⟩
    · obtain ⟨c, tl, e, hc⟩ := ih (n / 10) (by omega) (by omega)
      exact ⟨c, tl ++ [48 + n % 10], by rw [dec_step n (by omega), e]; rfl, hc⟩

theorem dec_allDigits : ∀ (n : Nat), allDigits (dec n) := by
  intro n
  induction n using Nat.strong_induction_on with
  | _ n ih =>
    by_cases h : n < 10
    · rw [dec_small n h]; intro c hc; simp at hc; omega
    · rw [dec_step n (by omega)]
      refine allDigits_append.2 ⟨ih _ (by omega), ?_⟩
      intro c hc; simp at hc; omega

theorem dec_isNumeral (n : Nat) : isNumeral (dec n) := by
  refine ⟨?_, dec_allDigits n, ?_⟩
  · by_cases h : n < 10
    · rw [dec_small n h]; simp
    · rw [dec_step n (by omega)]; simp
  · intro h48
    by_cases h0 : n = 0
    · subst h0; rfl
    · obtain ⟨c, tl, e, hc⟩ := dec_pos_head n (by omega)
      rw [e] at h48
      simp at h48
      omega

theorem incDecimal_snoc_nine (a r : Bytes) (h : incDecimal a = some r) :
    incDecimal (a ++ [57]) = some (r ++ [48]) := by
  rcases nines_or_carry a with ⟨n, rfl⟩ | ⟨q, c, k, hc, rfl⟩
  · cases n with
    | zero => simp [incDecimal, incLoop] at h
    | succ n =>
      rw [incDecimal_all_nines] at h
      have e : List.replicate (n + 1) 57 ++ [57] = List.replicate (n + 2) 57 := by
        rw [← List.replicate_succ']
      rw [e, incDecimal_all_nines (n + 1)]
      simp only [Option.some.injEq] at h
      rw [← h]
      simp only [List.cons_append, ← List.replicate_succ']
  · rw [incDecimal_carry q c k hc] at h
    have e : q ++ c :: List.replicate k 57 ++ [57] = q ++ c :: List.replicate (k + 1) 57 := by
      simp [List.replicate_succ']
    rw [e, incDecimal_carry q c (k + 1) hc]
    simp only [Option.some.injEq] at h
    rw [← h]
    simp [List.replicate_succ']

theorem incDecimal_dec : ∀ (n : Nat), incDecimal (dec n) = some (dec (n + 1)) := by
  intro n
  induction n using Nat.strong_induction_on with
  | _ n ih =>
    by_cases h : n < 10
    · rw [dec_small n h]
      by_cases h9 : n = 9
      · subst h9; decide
      · have := incDecimal_carry [] (48 + n) 0 (by omega)
        simp only [List.nil_append, List.replicate_zero] at this
        rw [this, dec_small (n + 1) (by omega)]
        congr 2
        omega
    · rw [dec_step n (by omega), dec_step (n + 1) (by omega)]
      by_cases h9 : n % 10 = 9
      · have e1 : 48 + n % 10 = 57 := by omega
        have e2 : (n + 1) / 10 = n / 10 + 1 := by omega
        have e3 : 48 + (n + 1) % 10 = 48 := by omega
        rw [e1, e2, e3]
        exact incDecimal_snoc_nine _ _ (ih (n / 10) (by omega))
      · have := incDecimal_carry (dec (n / 10)) (48 + n % 10) 0 (by omega)
        simp only [List.replicate_zero] at this
        rw [this]
        have e2 : (n + 1) / 10 = n / 10 := by omega
        have e3 : (48 + n % 10 + 1) % 256 = 48 + (n + 1) % 10 := by omega
        rw [e2, e3]


/-! ## The sub-parsers of package semver -/

theorem isIdentChar_ne {c : Nat} (h : isIdentChar c = true) : c ≠ 43 ∧ c ≠ 46 := by
  simp only [isIdentChar, decide_eq_true_eq] at h
  omega

theorem preLoop_identChars : ∀ (s cur rest : Bytes), identChars s →
    preLoop (s ++ rest) cur = (preLoop rest (cur ++ s)).map (· + s.length) := by
  intro s
  induction s with
  | nil => intro cur rest _; simp
  | cons c s ih =>
    intro cur rest hs
    have hc : isIdentChar c = true := hs c (by simp)
    have hne := isIdentChar_ne hc
    have hs' : identChars s := fun x hx => hs x (by simp [hx])
    simp only [List.cons_append, preLoop, if_neg hne.1, if_neg hne.2, List.append_eq]
    rw [if_neg (by simp [hc]), ih (cur ++ [c]) rest hs']
    simp only [List.append_assoc, List.singleton_append, List.length_cons]
    cases preLoop rest (cur ++ c :: s) <;> simp [Nat.add_assoc]

theorem preLoop_le : ∀ (r cur : Bytes) (n : Nat), preLoop r cur = some n → n ≤ r.length := by
  intro r
  induction r with
  | nil =>
    intro cur n h
    simp only [preLoop] at h
    split at h
    · exact absurd h (by simp)
    · simp at h; omega
  | cons c cs ih =>
    intro cur n h
    simp only [preLoop] at h
    split at h
    · split at h
      · exact absurd h (by simp)
      · simp at h; omega
    · split at h
      · exact absurd h (by simp)
      · split at h
        · split at h
          · exact absurd h (by simp)
          · simp only [Option.map_eq_some'] at h
            obtain ⟨m, hm, rfl⟩ := h
            have := ih _ _ hm
            simp; omega
        · simp only [Option.map_eq_some'] at h
          obtain ⟨m, hm, rfl⟩ := h
          have := ih _ _ hm
          simp; omega

theorem preLoop_full : ∀ (body cur : Bytes), preLoop body cur = some body.length →
    ∃ cur', endOK cur' ∧
      ∀ T, preLoop (body ++ T) cur = (preLoop T cur').map (· + body.length) := by
  intro body
  induction body with
  | nil =>
    intro cur h
    simp only [preLoop] at h
    split at h
    · exact absurd h (by simp)
    · rename_i hok
      exact ⟨cur, hok, by intro T; simp⟩
  | cons c cs ih =>
    intro cur h
    simp only [preLoop] at h
    split at h
    · split at h
      · exact absurd h (by simp)
      · simp at h
    · rename_i h43
      split at h
      · exact absurd h (by simp)
      · rename_i hid
        split at h
        · rename_i h46
          split at h
          · exact absurd h (by simp)
          · rename_i hok
            simp only [Option.map_eq_some', List.length_cons] at h
            obtain ⟨m, hm, hm'⟩ := h
            have hm2 : m = cs.length := by omega
            subst hm2
            obtain ⟨cur', hc', hT⟩ := ih [] hm
            refine ⟨cur', hc', ?_⟩
            intro T
            simp only [List.cons_append, preLoop, if_neg h43, if_neg hid, if_pos h46, if_neg hok,
              List.append_eq, hT T, List.length_cons]
            cases preLoop T cur' <;> simp [Nat.add_assoc]
        · rename_i h46
          simp only [Option.map_eq_some', List.length_cons] at h
          obtain ⟨m, hm, hm'⟩ := h
          have hm2 : m = cs.length := by omega
          subst hm2
          obtain ⟨cur', hc', hT⟩ := ih _ hm
          refine ⟨cur', hc', ?_⟩
          intro T
          simp only [List.cons_append, preLoop, if_neg h43, if_neg hid, if_neg h46,
            List.append_eq, hT T, List.length_cons]
          cases preLoop T cur' <;> simp [Nat.add_assoc]

theorem preLoop_stop {T cur : Bytes} (hT : plusOrEnd T) (hc : endOK cur) :
    preLoop T cur = some 0 := by
  rcases hT with rfl | hT
  · simp only [preLoop]; rw [if_neg hc]
  · cases T with
    | nil => simp at hT
    | cons c cs =>
      simp at hT; subst hT
      have hc' : ¬ (cur = [] ∨ isBadNum cur = true) := hc
      simp only [preLoop, if_true, if_neg hc']

theorem preLoop_dot {E cur : Bytes} (hc : endOK cur) :
    preLoop (46 :: E) cur = (preLoop E []).map (· + 1) := by
  have hc' : ¬ (cur = [] ∨ isBadNum cur = true) := hc
  simp only [preLoop, if_neg hc']
  simp

theorem validPrerelease_body {p : Bytes} (h : validPrerelease p) :
    ∃ body, p = 45 :: body ∧ preLoop body [] = some body.length := by
  unfold validPrerelease parsePrerelease at h
  split at h
  · rename_i body
    simp only [Option.map_eq_some', Prod.mk.injEq] at h
    obtain ⟨n, hn, h1, h2⟩ := h
    have hle := preLoop_le _ _ _ hn
    have : body.length ≤ n := by
      have := congrArg List.length h2
      simp at this
      omega
    have e : n = body.length := by omega
    subst e
    exact ⟨body, rfl, hn⟩
  · exact absurd h (by simp)

theorem parsePrerelease_of_body (body T : Bytes) (n : Nat)
    (h : preLoop (body ++ T) [] = some n) (hn : n = body.length) :
    parsePrerelease (45 :: body ++ T) = some (45 :: body, T) := by
  subst hn
  simp only [parsePrerelease, List.cons_append, h, Option.map_some']
  rw [← List.cons_append, ← List.length_cons 45 body, List.take_left, List.drop_left]

theorem parsePrerelease_append {p B : Bytes} (h : validPrerelease p) (hB : plusOrEnd B) :
    parsePrerelease (p ++ B) = some (p, B) := by
  obtain ⟨body, rfl, hb⟩ := validPrerelease_body h
  obtain ⟨cur', hc', hT⟩ := preLoop_full body [] hb
  have := hT B
  rw [preLoop_stop hB hc'] at this
  exact parsePrerelease_of_body body B _ this (by simp)

/-- Extending a valid pre-release label by `'.'` and a further part `E` that is
itself accepted gives a valid label. -/
theorem validPrerelease_extend {p E : Bytes} (h : validPrerelease p)
    (hE : preLoop E [] = some E.length) : validPrerelease (p ++ 46 :: E) := by
  obtain ⟨body, rfl, hb⟩ := validPrerelease_body h
  obtain ⟨cur', hc', hT⟩ := preLoop_full body [] hb
  have h1 := hT (46 :: E)
  rw [preLoop_dot hc', hE] at h1
  simp only [Option.map_some'] at h1
  have := parsePrerelease_of_body (body ++ 46 :: E) [] (body ++ 46 :: E).length
    (by rw [List.append_nil, h1]; simp; omega) rfl
  simpa [validPrerelease] using this

theorem isBadNum_of_mem {s : Bytes} (h : 45 ∈ s) : isBadNum s = false := by
  have : digitRun s ≠ s.length := by
    intro e
    have := (digitRun_eq_length.1 e) 45 h
    omega
  simp [isBadNum, this]

theorem preLoop_ident_hyphen {s : Bytes} (hs : identChars s) (h : 45 ∈ s) :
    preLoop s [] = some s.length := by
  have := preLoop_identChars s [] [] hs
  simp only [List.append_nil, List.nil_append] at this
  rw [this]
  have hne : s ≠ [] := by rintro rfl; simp at h
  simp [preLoop, hne, isBadNum_of_mem h]

theorem parseBuild_head {B : Bytes} (h : validBuild B) : B.head? = some 43 := by
  unfold validBuild parseBuild at h
  split at h
  · rfl
  · exact absurd h (by simp)

theorem validPrerelease_head {p : Bytes} (h : validPrerelease p) : p.head? = some 45 := by
  obtain ⟨body, rfl, _⟩ := validPrerelease_body h
  rfl


/-! ## `parse`: versions it accepts, and what it accepts -/

theorem version_eq (X Y Z PRE B : Bytes) :
    version X Y Z PRE B = 118 :: (X ++ 46 :: (Y ++ 46 :: (Z ++ (PRE ++ B)))) := by
  simp [version, str]

theorem noDigitHead_cons {c : Nat} {r : Bytes} (h : ¬ (48 ≤ c ∧ c ≤ 57)) :
    noDigitHead (c :: r) := by
  intro c' hc'
  simp at hc'
  subst hc'
  exact h

theorem plusOrEnd_of_build {B : Bytes} (hB : B = [] ∨ validBuild B) : plusOrEnd B := by
  rcases hB with rfl | hB
  · exact Or.inl rfl
  · exact Or.inr (parseBuild_head hB)

theorem noDigitHead_pre_build {PRE B : Bytes} (hP : PRE = [] ∨ validPrerelease PRE)
    (hB : B = [] ∨ validBuild B) : noDigitHead (PRE ++ B) := by
  intro c hc
  rcases hP with rfl | hP
  · rcases plusOrEnd_of_build hB with rfl | hB'
    · simp at hc
    · simp only [List.nil_append] at hc
      rw [hB'] at hc
      simp at hc
      omega
  · obtain ⟨body, rfl, _⟩ := validPrerelease_body hP
    simp at hc
    omega

theorem parse_version (X Y Z PRE B : Bytes) (hX : isNumeral X) (hY : isNumeral Y)
    (hZ : isNumeral Z) (hP : PRE = [] ∨ validPrerelease PRE) (hB : B = [] ∨ validBuild B) :
    parse (version X Y Z PRE B) = some ⟨X, Y, Z, [], PRE, B⟩ := by
  rw [version_eq]
  have h1 := parseInt_numeral X (46 :: (Y ++ 46 :: (Z ++ (PRE ++ B)))) hX
    (noDigitHead_cons (by omega))
  have h2 := parseInt_numeral Y (46 :: (Z ++ (PRE ++ B))) hY (noDigitHead_cons (by omega))
  have h3 := parseInt_numeral Z (PRE ++ B) hZ (noDigitHead_pre_build hP hB)
  have hpe := plusOrEnd_of_build hB
  have h4 : (if (PRE ++ B).head? = some 45 then parsePrerelease (PRE ++ B)
      else some ([], PRE ++ B)) = some (PRE, B) := by
    rcases hP with rfl | hP
    · have : ¬ (([] ++ B).head? = some 45) := by
        rcases hpe with rfl | hb
        · simp
        · simp [hb]
      rw [if_neg this]; rfl
    · have : (PRE ++ B).head? = some 45 := by
        obtain ⟨body, rfl, _⟩ := validPrerelease_body hP
        rfl
      rw [if_pos this, parsePrerelease_append hP hpe]
  have h5 : (if B.head? = some 43 then parseBuild B else some ([], B)) = some (B, []) := by
    rcases hB with rfl | hB
    · simp
    · rw [if_pos (parseBuild_head hB)]; exact hB
  simp only [parse, h1, h2, h3, h4, h5]
  simp

theorem preLoop_take : ∀ (r cur : Bytes) (n : Nat), preLoop r cur = some n →
    preLoop (r.take n) cur = some n := by
  intro r
  induction r with
  | nil =>
    intro cur n h
    have := preLoop_le _ _ _ h
    simp at this
    subst this
    simpa using h
  | cons c cs ih =>
    intro cur n h
    simp only [preLoop] at h
    split at h
    · split at h
      · exact absurd h (by simp)
      · rename_i hok
        simp only [Option.some.injEq] at h
        subst h
        simp only [List.take_zero, preLoop, if_neg hok]
    · rename_i h43
      split at h
      · exact absurd h (by simp)
      · rename_i hid
        split at h
        · rename_i h46
          split at h
          · exact absurd h (by simp)
          · rename_i hok
            simp only [Option.map_eq_some'] at h
            obtain ⟨m, hm, rfl⟩ := h
            simp only [List.take_succ_cons, preLoop, if_neg h43, if_neg hid, if_pos h46,
              if_neg hok, ih _ _ hm, Option.map_some']
        · rename_i h46
          simp only [Option.map_eq_some'] at h
          obtain ⟨m, hm, rfl⟩ := h
          simp only [List.take_succ_cons, preLoop, if_neg h43, if_neg hid, if_neg h46,
            ih _ _ hm, Option.map_some']

theorem parsePrerelease_inv {v t rest : Bytes} (h : parsePrerelease v = some (t, rest)) :
    v = t ++ rest ∧ validPrerelease t := by
  unfold parsePrerelease at h
  split at h
  · rename_i body
    simp only [Option.map_eq_some', Prod.mk.injEq] at h
    obtain ⟨n, hn, rfl, rfl⟩ := h
    refine ⟨(List.take_append_drop _ _).symm, ?_⟩
    have hle := preLoop_le _ _ _ hn
    have ht := preLoop_take _ _ _ hn
    rw [List.take_succ_cons]
    unfold validPrerelease parsePrerelease
    have hl : (List.take n body).length = n := by simp; omega
    simp only [ht, Option.map_some', Option.some.injEq, Prod.mk.injEq]
    constructor
    · rw [List.take_succ_cons]
      congr 1
      nth_rewrite 1 [← hl]
      exact List.take_length _
    · rw [List.drop_succ_cons]
      nth_rewrite 1 [← hl]
      exact List.drop_length _
  · exact absurd h (by simp)

theorem parseBuild_inv {v t rest : Bytes} (h : parseBuild v = some (t, rest)) :
    t = v ∧ rest = [] ∧ validBuild v := by
  have h0 := h
  unfold parseBuild at h
  split at h
  · split at h
    · simp only [Option.some.injEq, Prod.mk.injEq] at h
      obtain ⟨rfl, rfl⟩ := h
      exact ⟨rfl, rfl, h0⟩
    · exact absurd h (by simp)
  · exact absurd h (by simp)

theorem isNumeral_zero : isNumeral (str "0") := by decide

/-- What `parse` accepts: three numerals, an optional valid pre-release label
and optional valid build metadata, written in full, or the shorthand
`vMAJOR` / `vMAJOR.MINOR`, which `short` completes. -/
theorem parse_inv {v : Bytes} {p : parsed} (h : parse v = some p) :
    isNumeral p.major ∧ isNumeral p.minor ∧ isNumeral p.patch ∧
    (p.prerelease = [] ∨ validPrerelease p.prerelease) ∧
    (p.build = [] ∨ validBuild p.build) ∧
    ((p.short = [] ∧ v = version p.major p.minor p.patch p.prerelease p.build) ∨
     (p.short ≠ [] ∧ p.prerelease = [] ∧ p.build = [] ∧
      v ++ p.short = version p.major p.minor p.patch [] [])) := by
  cases v with
  | nil => simp [parse] at h
  | cons c v1 =>
    simp only [parse] at h
    split at h
    · exact absurd h (by simp)
    · rename_i hc
      have hc' : c = 118 := by simpa using hc
      subst hc'
      split at h
      · exact absurd h (by simp)
      · rename_i major h1
        obtain ⟨e1, n1, _⟩ := parseInt_inv h1
        simp only [Option.some.injEq] at h
        subst h
        refine ⟨n1, isNumeral_zero, isNumeral_zero, Or.inl rfl, Or.inl rfl, Or.inr ?_⟩
        refine ⟨by show str ".0.0" ≠ []; decide, rfl, rfl, ?_⟩
        rw [version_eq, e1]
        simp [str]
      · rename_i major c2 v3 h1
        obtain ⟨e1, n1, _⟩ := parseInt_inv h1
        split at h
        · exact absurd h (by simp)
        · rename_i hc2
          have hc2' : c2 = 46 := by simpa using hc2
          subst hc2'
          split at h
          · exact absurd h (by simp)
          · rename_i minor h2
            obtain ⟨e2, n2, _⟩ := parseInt_inv h2
            simp only [Option.some.injEq] at h
            subst h
            refine ⟨n1, n2, isNumeral_zero, Or.inl rfl, Or.inl rfl, Or.inr ?_⟩
            refine ⟨by show str ".0" ≠ []; decide, rfl, rfl, ?_⟩
            rw [version_eq, e1, e2]
            simp [str]
          · rename_i minor c4 v5 h2
            obtain ⟨e2, n2, _⟩ := parseInt_inv h2
            split at h
            · exact absurd h (by simp)
            · rename_i hc4
              have hc4' : c4 = 46 := by simpa using hc4
              subst hc4'
              split at h
              · exact absurd h (by simp)
              · rename_i patch v6 h3
                obtain ⟨e3, n3, _⟩ := parseInt_inv h3
                split at h
                · exact absurd h (by simp)
                · rename_i pre v7 h4
                  split at h
                  · exact absurd h (by simp)
                  · rename_i build v8 h5
                    split at h
                    · exact absurd h (by simp)
                    · rename_i h8
                      have h8' : v8 = [] := by simpa using h8
                      subst h8'
                      simp only [Option.some.injEq] at h
                      subst h
                      have hpre : v6 = pre ++ v7 ∧ (pre = [] ∨ validPrerelease pre) := by
                        split at h4
                        · obtain ⟨e, hv⟩ := parsePrerelease_inv h4
                          exact ⟨e, Or.inr hv⟩
                        · simp only [Option.some.injEq, Prod.mk.injEq] at h4
                          obtain ⟨rfl, rfl⟩ := h4
                          exact ⟨rfl, Or.inl rfl⟩
                      have hbuild : v7 = build ∧ (build = [] ∨ validBuild build) := by
                        split at h5
                        · obtain ⟨e, _, hv⟩ := parseBuild_inv h5
                          subst e
                          exact ⟨rfl, Or.inr hv⟩
                        · simp only [Option.some.injEq, Prod.mk.injEq] at h5
                          obtain ⟨rfl, rfl⟩ := h5
                          exact ⟨rfl, Or.inl rfl⟩
                      refine ⟨n1, n2, n3, hpre.2, hbuild.2, Or.inl ⟨rfl, ?_⟩⟩
                      rw [version_eq, e1, e2, e3, hpre.1, hbuild.1]

theorem version_ne_nil (X Y Z PRE B : Bytes) : version X Y Z PRE B ≠ [] := by
  rw [version_eq]; simp

theorem version_append (X Y Z PRE B : Bytes) :
    version X Y Z PRE [] ++ B = version X Y Z PRE B := by
  simp [version]

/-- The three things `PseudoVersion` asks package semver about `older`. -/
theorem classify {v : Bytes} {p : parsed} (h : parse v = some p) :
    Canonical v = version p.major p.minor p.patch p.prerelease [] ∧
    Build v = p.build ∧
    Prerelease (Canonical v) = p.prerelease := by
  obtain ⟨n1, n2, n3, hP, hB, hshape⟩ := parse_inv h
  have hC : Canonical v = version p.major p.minor p.patch p.prerelease [] := by
    unfold Canonical
    rw [h]
    simp only
    rcases hshape with ⟨hs, hv⟩ | ⟨hs, hp, hb, hv⟩
    · by_cases hb : p.build = []
      · rw [if_neg (by simp [hb]), if_neg (by simp [hs])]
        rw [hv, hb]
      · rw [if_pos hb]
        nth_rewrite 1 2 [hv]
        rw [← version_append, List.length_append, Nat.add_sub_cancel, List.take_left]
    · rw [if_neg (by simp [hb]), if_pos hs, hv, hp]
  refine ⟨hC, by simp [Build, h], ?_⟩
  rw [hC]
  have := parse_version p.major p.minor p.patch p.prerelease [] n1 n2 n3 hP (Or.inl rfl)
  simp [Prerelease, this]


/-! ## `strings.LastIndex` and `Time.Format` -/

theorem lastIndexFrom_append (c : Nat) : ∀ (a b : Bytes) (k : Nat) (acc : Int),
    lastIndexFrom c (a ++ b) k acc
      = lastIndexFrom c b (k + a.length) (lastIndexFrom c a k acc) := by
  intro a
  induction a with
  | nil => intro b k acc; simp [lastIndexFrom]
  | cons x a ih =>
    intro b k acc
    simp only [List.cons_append, lastIndexFrom, List.append_eq, List.length_cons]
    rw [ih, show k + 1 + a.length = k + (a.length + 1) by omega]

theorem lastIndexFrom_not_mem (c : Nat) : ∀ (b : Bytes) (k : Nat) (acc : Int), c ∉ b →
    lastIndexFrom c b k acc = acc := by
  intro b
  induction b with
  | nil => intro k acc _; rfl
  | cons x b ih =>
    intro k acc h
    simp only [List.mem_cons, not_or] at h
    simp only [lastIndexFrom]
    rw [if_neg (fun e => h.1 e.symm), ih _ _ h.2]

theorem LastIndex_dot (a z : Bytes) (hz : allDigits z) :
    LastIndex (a ++ 46 :: z) 46 = (a.length : Int) := by
  have h46 : 46 ∉ z := by
    intro h
    have := hz 46 h
    omega
  unfold LastIndex
  rw [lastIndexFrom_append]
  simp only [lastIndexFrom, if_true, Nat.zero_add]
  rw [lastIndexFrom_not_mem 46 z _ _ h46]

theorem appendInt_chars (x : Int) (w : Nat) :
    ∀ c ∈ appendInt x w, (48 ≤ c ∧ c ≤ 57) ∨ c = 45 := by
  intro c hc
  unfold appendInt at hc
  simp only [List.mem_append] at hc
  rcases hc with (hc | hc) | hc
  · split at hc
    · simp at hc; exact Or.inr hc
    · simp at hc
  · rw [List.eq_of_mem_replicate hc]; left; omega
  · exact Or.inl (dec_allDigits _ c hc)

theorem Format_chars (t : Time) : ∀ c ∈ t.Format, (48 ≤ c ∧ c ≤ 57) ∨ c = 45 := by
  intro c hc
  unfold Time.Format at hc
  simp only [List.mem_append] at hc
  rcases hc with ((((hc | hc) | hc) | hc) | hc) | hc <;> exact appendInt_chars _ _ c hc

theorem identChars_append {a b : Bytes} :
    identChars (a ++ b) ↔ identChars a ∧ identChars b := by
  simp only [identChars, List.mem_append]
  constructor
  · intro h; exact ⟨fun c hc => h c (Or.inl hc), fun c hc => h c (Or.inr hc)⟩
  · rintro ⟨h1, h2⟩ c (hc | hc)
    · exact h1 c hc
    · exact h2 c hc

theorem identChars_segment (t : Time) {rev : Bytes} (hr : identChars rev) :
    identChars (segment t rev) := by
  unfold segment
  refine identChars_append.2 ⟨identChars_append.2 ⟨?_, by decide⟩, hr⟩
  intro c hc
  have := Format_chars _ c hc
  simp only [isIdentChar, decide_eq_true_eq]
  omega

theorem hyphen_mem_segment (t : Time) (rev : Bytes) : 45 ∈ segment t rev := by
  simp [segment, str]

/-! ## The three forms of `PseudoVersion` -/

theorem PseudoVersion_invalid (major older : Bytes) (t : Time) (rev : Bytes)
    (h : parse older = none) :
    PseudoVersion major older t rev
      = some ((if major = [] then str "v0" else major) ++ str ".0.0-" ++ segment t rev) := by
  have hC : Canonical older = [] := by simp [Canonical, h]
  simp only [PseudoVersion, hC, if_true, segment]

theorem PseudoVersion_valid (major older : Bytes) (t : Time) (rev : Bytes) {p : parsed}
    (h : parse older = some p) :
    PseudoVersion major older t rev =
      if p.prerelease ≠ [] then
        some (version p.major p.minor p.patch p.prerelease [] ++ str ".0." ++ segment t rev
          ++ p.build)
      else (incDecimal p.patch).map (fun q =>
        version p.major p.minor q (str "-0." ++ segment t rev) p.build) := by
  obtain ⟨hC, hB, hP⟩ := classify h
  obtain ⟨n1, n2, n3, _, _, _⟩ := parse_inv h
  have hne : ¬ (version p.major p.minor p.patch p.prerelease [] = []) := version_ne_nil _ _ _ _ _
  unfold PseudoVersion
  simp only [hB, hP]
  simp only [hC, if_neg hne]
  by_cases hpre : p.prerelease = []
  · rw [if_neg (by simp [hpre]), if_neg (by simp [hpre])]
    have e : version p.major p.minor p.patch p.prerelease []
        = (118 :: (p.major ++ 46 :: p.minor)) ++ 46 :: p.patch := by
      rw [version_eq, hpre]; simp
    rw [e, LastIndex_dot _ _ n3.2.1]
    have e2 : (((118 :: (p.major ++ 46 :: p.minor)).length : Int) + 1).toNat
        = ((118 :: (p.major ++ 46 :: p.minor)) ++ [46]).length := by
      simp
      omega
    have e3 : (118 :: (p.major ++ 46 :: p.minor)) ++ 46 :: p.patch
        = ((118 :: (p.major ++ 46 :: p.minor)) ++ [46]) ++ p.patch := by simp
    rw [e2, e3, List.take_left, List.drop_left]
    cases incDecimal p.patch with
    | none => rfl
    | some q => simp [version, str, segment]
  · rw [if_pos hpre, if_pos hpre]
    simp [segment]


/-! ## `semver.Compare` -/

theorem compareInt_self (x : Bytes) : compareInt x x = 0 := by simp [compareInt]

theorem bytesLt_append (q a b : Bytes) : bytesLt (q ++ a) (q ++ b) = bytesLt a b := by
  induction q with
  | nil => rfl
  | cons c q ih => simp [bytesLt, ih]

theorem compareInt_incDecimal {z z' : Bytes} (hz : allDigits z) (h : incDecimal z = some z') :
    compareInt z' z = 1 := by
  rcases nines_or_carry z with ⟨n, rfl⟩ | ⟨q, c, k, hc, rfl⟩
  · cases n with
    | zero => simp [incDecimal, incLoop] at h
    | succ n =>
      rw [incDecimal_all_nines] at h
      simp only [Option.some.injEq] at h
      subst h
      unfold compareInt
      rw [if_neg (by intro e; have := congrArg List.length e; simp at this),
        if_neg (by simp), if_pos (by simp)]
  · rw [incDecimal_carry q c k hc] at h
    simp only [Option.some.injEq] at h
    subst h
    have hc' := (allDigits_cons.1 (allDigits_append.1 hz).2).1
    have hmod : (c + 1) % 256 = c + 1 := by omega
    rw [hmod]
    unfold compareInt
    have hne : ¬ (q ++ (c + 1) :: List.replicate k 48 = q ++ c :: List.replicate k 57) := by
      intro e
      have := List.append_cancel_left e
      simp at this
    rw [if_neg hne, if_neg (by simp), if_neg (by simp), bytesLt_append]
    simp [bytesLt]

theorem comparePrerelease_release {x : Bytes} (hx : x ≠ []) : comparePrerelease x [] = -1 := by
  simp [comparePrerelease, hx]

theorem nextIdent_append_dot : ∀ (l E : Bytes),
    nextIdent (l ++ 46 :: E) = ((nextIdent l).1, (nextIdent l).2 ++ 46 :: E) := by
  intro l
  induction l with
  | nil => intro E; simp [nextIdent]
  | cons c l ih =>
    intro E
    by_cases hc : c = 46
    · subst hc; simp [nextIdent]
    · simp [nextIdent, hc, ih]

theorem nextIdent_length (l : Bytes) : (nextIdent l).2.length ≤ l.length := by
  induction l with
  | nil => simp [nextIdent]
  | cons c l ih =>
    by_cases hc : c = 46
    · subst hc; simp [nextIdent]
    · simp only [nextIdent, if_neg hc, List.length_cons]; omega

theorem comparePreLoop_extend (E : Bytes) : ∀ (fuel : Nat) (P : Bytes), P ≠ [] →
    P.length ≤ fuel → comparePreLoop fuel (P ++ 46 :: E) P = 1 := by
  intro fuel
  induction fuel with
  | zero =>
    intro P hP hl
    cases P with
    | nil => exact absurd rfl hP
    | cons c P => simp at hl
  | succ fuel ih =>
    intro P hP hl
    cases P with
    | nil => exact absurd rfl hP
    | cons c P =>
      simp only [comparePreLoop, List.cons_append, List.drop_succ_cons, List.drop_zero,
        nextIdent_append_dot]
      rw [if_neg (by simp), if_neg (by simp)]
      by_cases hr : (nextIdent P).2 = []
      · rw [hr]
        cases fuel with
        | zero => simp [comparePreLoop]
        | succ fuel => simp [comparePreLoop]
      · apply ih _ hr
        have := nextIdent_length P
        simp at hl
        omega

theorem comparePrerelease_extend {P : Bytes} (E : Bytes) (hP : P ≠ []) :
    comparePrerelease (P ++ 46 :: E) P = 1 := by
  unfold comparePrerelease
  rw [if_neg (by intro e; have := congrArg List.length e; simp at this),
    if_neg (by simp), if_neg hP]
  exact comparePreLoop_extend E _ P hP (by simp)

theorem Compare_parsed {v w : Bytes} {pv pw : parsed} (hv : parse v = some pv)
    (hw : parse w = some pw) :
    Compare v w =
      if compareInt pv.major pw.major ≠ 0 then compareInt pv.major pw.major
      else if compareInt pv.minor pw.minor ≠ 0 then compareInt pv.minor pw.minor
      else if compareInt pv.patch pw.patch ≠ 0 then compareInt pv.patch pw.patch
      else comparePrerelease pv.prerelease pw.prerelease := by
  simp only [Compare, hv, hw]

/-! ## The pre-release labels `PseudoVersion` writes -/

theorem preLoop_zero_dot {s : Bytes} (h : preLoop s [] = some s.length) :
    preLoop (48 :: 46 :: s) [] = some (48 :: 46 :: s).length := by
  have h1 : preLoop (48 :: 46 :: s) [] = (preLoop (46 :: s) [48]).map (· + 1) := by
    simp [preLoop, isIdentChar]
  have h2 : endOK [48] := by unfold endOK; decide
  rw [h1, preLoop_dot h2, h]
  simp

theorem validPrerelease_of_body {body : Bytes} (h : preLoop body [] = some body.length) :
    validPrerelease (45 :: body) := by
  have := parsePrerelease_of_body body [] body.length
    (by simpa using h) rfl
  simpa [validPrerelease] using this

theorem validPrerelease_form1 (t : Time) {rev : Bytes} (hr : identChars rev) :
    validPrerelease (45 :: segment t rev) :=
  validPrerelease_of_body (preLoop_ident_hyphen (identChars_segment t hr)
    (hyphen_mem_segment t rev))

theorem validPrerelease_form2 (t : Time) {rev : Bytes} (hr : identChars rev) :
    validPrerelease (str "-0." ++ segment t rev) :=
  validPrerelease_of_body (preLoop_zero_dot (preLoop_ident_hyphen (identChars_segment t hr)
    (hyphen_mem_segment t rev)))

theorem validPrerelease_form4 (t : Time) {PRE rev : Bytes} (hP : validPrerelease PRE)
    (hr : identChars rev) : validPrerelease (PRE ++ str ".0." ++ segment t rev) := by
  have := validPrerelease_extend hP (preLoop_zero_dot (preLoop_ident_hyphen
    (identChars_segment t hr) (hyphen_mem_segment t rev)))
  simpa [str] using this


/-! ## Numerals are the decimal renderings of the naturals -/

theorem decVal_snoc (l : Bytes) (c : Nat) : decVal (l ++ [c]) = 10 * decVal l + (c - 48) := by
  simp [decVal, List.foldl_append]

theorem numeral_eq_dec : ∀ (d : Bytes), isNumeral d → d = dec (decVal d) := by
  intro d
  induction d using List.reverseRecOn with
  | nil => intro h; exact absurd rfl h.1
  | append_singleton init c ih =>
    intro h
    obtain ⟨_, hd, hz⟩ := h
    have hc : 48 ≤ c ∧ c ≤ 57 := hd c (by simp)
    rw [decVal_snoc]
    by_cases hi : init = []
    · subst hi
      have e : decVal [] = 0 := rfl
      rw [e, dec_small _ (by omega)]
      simp
      omega
    · have hhead : init.head? ≠ some 48 := by
        intro h48
        have h1 : (init ++ [c]).head? = some 48 := by
          cases init with
          | nil => exact absurd rfl hi
          | cons a r => simpa using h48
        have h2 := congrArg List.length (hz h1)
        cases init with
        | nil => exact absurd rfl hi
        | cons a r => simp at h2
      have hnum : isNumeral init :=
        ⟨hi, (allDigits_append.1 hd).1, fun h48 => absurd h48 hhead⟩
      have e := ih hnum
      have hpos : decVal init ≠ 0 := by
        intro h0
        rw [h0] at e
        rw [e] at hhead
        exact hhead rfl
      rw [dec_step _ (by omega)]
      have e1 : (10 * decVal init + (c - 48)) / 10 = decVal init := by omega
      have e2 : 48 + (10 * decVal init + (c - 48)) % 10 = c := by omega
      rw [e1, e2, ← e]

theorem incDecimal_numeral {z : Bytes} (hz : isNumeral z) :
    ∃ q, incDecimal z = some q ∧ isNumeral q := by
  rw [numeral_eq_dec z hz, incDecimal_dec]
  exact ⟨_, rfl, dec_isNumeral _⟩


/-! ## Trailing runs -/

theorem run_or_last (z : Nat) (d : Bytes) :
    (∃ n, d = List.replicate n z) ∨
    (∃ q c k, c ≠ z ∧ d = q ++ c :: List.replicate k z) := by
  induction d using List.reverseRecOn with
  | nil => exact Or.inl ⟨0, rfl⟩
  | append_singleton xs x ih =>
    by_cases hx : x = z
    · subst hx
      rcases ih with ⟨n, rfl⟩ | ⟨q, c, k, hc, rfl⟩
      · exact Or.inl ⟨n + 1, by simp [List.replicate_succ']⟩
      · exact Or.inr ⟨q, c, k + 1, hc, by simp [List.replicate_succ']⟩
    · exact Or.inr ⟨xs, x, 0, hx, by simp⟩

theorem snoc_inj (l1 l2 : Bytes) (x y : Nat) (h : l1 ++ [x] = l2 ++ [y]) :
    l1 = l2 ∧ x = y := by
  have := List.append_inj' h rfl
  exact ⟨this.1, by simpa using this.2⟩

theorem run_unique (z : Nat) : ∀ (k1 k2 : Nat) (q1 q2 : Bytes) (a b : Nat),
    a ≠ z → b ≠ z →
    q1 ++ a :: List.replicate k1 z = q2 ++ b :: List.replicate k2 z →
    q1 = q2 ∧ a = b ∧ k1 = k2 := by
  intro k1
  induction k1 with
  | zero =>
    intro k2 q1 q2 a b ha hb h
    cases k2 with
    | zero =>
      have := snoc_inj q1 q2 a b h
      exact ⟨this.1, this.2, rfl⟩
    | succ k2 =>
      have e : q2 ++ b :: List.replicate (k2 + 1) z
          = (q2 ++ b :: List.replicate k2 z) ++ [z] := by
        simp [List.replicate_succ']
      rw [e] at h
      have := snoc_inj q1 _ a z h
      exact absurd this.2 ha
  | succ k1 ih =>
    intro k2 q1 q2 a b ha hb h
    have e1 : q1 ++ a :: List.replicate (k1 + 1) z
        = (q1 ++ a :: List.replicate k1 z) ++ [z] := by
      simp [List.replicate_succ']
    cases k2 with
    | zero =>
      rw [e1] at h
      have := snoc_inj _ q2 z b h
      exact absurd this.2.symm hb
    | succ k2 =>
      have e2 : q2 ++ b :: List.replicate (k2 + 1) z
          = (q2 ++ b :: List.replicate k2 z) ++ [z] := by
        simp [List.replicate_succ']
      rw [e1, e2] at h
      have := ih k2 q1 q2 a b ha hb (snoc_inj _ _ z z h).1
      exact ⟨this.1, this.2.1, by omega⟩

theorem not_all_of_carry {z : Nat} {q : Bytes} {c k : Nat} (hc : c ≠ z) :
    ¬ ∀ x ∈ q ++ c :: List.replicate k z, x = z := by
  intro h
  exact hc (h c (by simp))

theorem all_replicate (z n : Nat) : ∀ x ∈ List.replicate n z, x = z := by
  intro x hx
  exact List.eq_of_mem_replicate hx


/-! ## Versions without the `v` -/

theorem parse_no_v (v : Bytes) (h : v.head? ≠ some 118) : parse v = none := by
  cases v with
  | nil => rfl
  | cons c tl =>
    have hc : c ≠ 118 := by
      intro e
      subst e
      exact h rfl
    simp [parse, hc]

theorem parse_of_IsValid {v : Bytes} (h : IsValid v = true) : ∃ p, parse v = some p := by
  cases hp : parse v with
  | none => simp [IsValid, hp] at h
  | some p => exact ⟨p, rfl⟩


/-! ## The width of the timestamp -/

theorem dec_length_pos (n : Nat) : 1 ≤ (dec n).length := by
  by_cases h : n < 10
  · rw [dec_small n h]; simp
  · rw [dec_step n (by omega)]; simp

theorem dec_length_le : ∀ (w n : Nat), n < 10 ^ (w + 1) → (dec n).length ≤ w + 1 := by
  intro w
  induction w with
  | zero =>
    intro n h
    rw [dec_small n (by simpa using h)]
    simp
  | succ w ih =>
    intro n h
    by_cases h10 : n < 10
    · rw [dec_small n h10]; simp
    · rw [dec_step n (by omega), List.length_append, List.length_singleton]
      have : n / 10 < 10 ^ (w + 1) := by
        rw [pow_succ] at h
        omega
      have := ih (n / 10) this
      omega

theorem appendInt_width (x : Int) (w : Nat) (h0 : 0 ≤ x) (hw : x.natAbs < 10 ^ (w + 1)) :
    (appendInt x (w + 1)).length = w + 1 ∧ allDigits (appendInt x (w + 1)) := by
  have hl := dec_length_le w x.natAbs hw
  unfold appendInt
  rw [if_neg (by omega)]
  refine ⟨?_, ?_⟩
  · simp only [List.nil_append, List.length_append, List.length_replicate]
    omega
  · exact allDigits_append.2
      ⟨allDigits_append.2 ⟨by intro c hc; simp at hc, allDigits_zeros _⟩,
      dec_allDigits _⟩

theorem civil_month_day (days : Int) :
    1 ≤ (civil days).2.1 ∧ (civil days).2.1 ≤ 12 ∧
    1 ≤ (civil days).2.2 ∧ (civil days).2.2 ≤ 31 := by
  unfold civil
  simp only
  split_ifs <;> omega

theorem civil_year (days : Int) (h1 : -719528 ≤ days) (h2 : days ≤ 2932896) :
    0 ≤ (civil days).1 ∧ (civil days).1 ≤ 9999 := by
  unfold civil
  simp only
  generalize hera : (days + 719468) / 146097 = era
  generalize hdoe : (days + 719468) % 146097 = doe
  have hz : days + 719468 = 146097 * era + doe := by omega
  have hd : 0 ≤ doe ∧ doe ≤ 146096 := by omega
  generalize hyoe : (doe - doe / 1460 + doe / 36524 - doe / 146096) / 365 = yoe
  have hy : 0 ≤ yoe ∧ yoe ≤ 399 := by omega
  generalize hdoy : doe - (365 * yoe + yoe / 4 - yoe / 100) = doy
  generalize hmp : (5 * doy + 2) / 153 = mp
  have hcase : era = -1 ∨ (0 ≤ era ∧ era ≤ 23) ∨ era = 24 := by omega
  rcases hcase with he | he | he
  · subst he
    have hd2 : 146037 ≤ doe := by omega
    have hy2 : yoe = 399 := by omega
    subst hy2
    have : 306 ≤ doy := by omega
    have : 10 ≤ mp := by omega
    split_ifs <;> omega
  · split_ifs <;> omega
  · subst he
    have hd2 : doe ≤ 146036 := by omega
    by_cases hy2 : yoe = 399
    · subst hy2
      have : doy ≤ 305 := by omega
      have : mp ≤ 9 := by omega
      split_ifs <;> omega
    · split_ifs <;> omega

theorem Format_width (t : Time) (h1 : -62167219200 ≤ t.sec) (h2 : t.sec ≤ 253402300799) :
    t.UTC.Format.length = 14 ∧ allDigits t.UTC.Format := by
  have hy := civil_year ((t.sec + 0) / 86400) (by omega) (by omega)
  have hmd := civil_month_day ((t.sec + 0) / 86400)
  have a1 := appendInt_width (civil ((t.sec + 0) / 86400)).1 3 hy.1 (by omega)
  have a2 := appendInt_width (civil ((t.sec + 0) / 86400)).2.1 1 (by omega) (by omega)
  have a3 := appendInt_width (civil ((t.sec + 0) / 86400)).2.2 1 (by omega) (by omega)
  have a4 := appendInt_width ((t.sec + 0) % 86400 / 3600) 1 (by omega) (by omega)
  have a5 := appendInt_width ((t.sec + 0) % 86400 % 3600 / 60) 1 (by omega) (by omega)
  have a6 := appendInt_width ((t.sec + 0) % 86400 % 60) 1 (by omega) (by omega)
  simp only [Nat.reduceAdd] at a1 a2 a3 a4 a5 a6
  unfold Time.Format Time.UTC
  simp only [List.length_append]
  refine ⟨by omega, ?_⟩
  exact allDigits_append.2 ⟨allDigits_append.2 ⟨allDigits_append.2 ⟨allDigits_append.2
    ⟨allDigits_append.2 ⟨a1.2, a2.2⟩, a3.2⟩, a4.2⟩, a5.2⟩, a6.2⟩


/-! ## The grammar of versions and what `parse` accepts -/

theorem isBadNum_iff (s : Bytes) :
    isBadNum s = true ↔ allDigits s ∧ 1 < s.length ∧ s.head? = some 48 := by
  unfold isBadNum
  simp only [Bool.and_eq_true, beq_iff_eq, decide_eq_true_eq]
  constructor
  · rintro ⟨⟨h1, h2⟩, h3⟩
    exact ⟨digitRun_eq_length.1 h1, by omega, h3⟩
  · rintro ⟨h1, h2, h3⟩
    have := digitRun_eq_length.2 h1
    exact ⟨⟨this, by omega⟩, h3⟩

theorem endOK_iff {cur : Bytes} (hc : identChars cur) : endOK cur ↔ preIdent cur := by
  unfold endOK preIdent
  rw [isBadNum_iff]
  constructor
  · intro h
    exact ⟨fun e => h (Or.inl e), hc, fun e => h (Or.inr e)⟩
  · rintro ⟨h1, _, h3⟩ (e | e)
    · exact h1 e
    · exact h3 e

theorem joinDots_cons_cons (c : Nat) (s : Bytes) (rest : List Bytes) :
    joinDots ((c :: s) :: rest) = c :: joinDots (s :: rest) := by
  cases rest with
  | nil => rfl
  | cons t rest => rfl

theorem joinDots_nil_cons (t : Bytes) (rest : List Bytes) :
    joinDots ([] :: t :: rest) = 46 :: joinDots (t :: rest) := rfl

theorem identChars_snoc {cur : Bytes} {c : Nat} (hc : identChars cur)
    (h : isIdentChar c = true) : identChars (cur ++ [c]) := by
  refine identChars_append.2 ⟨hc, ?_⟩
  intro x hx
  simp at hx
  subst hx
  exact h

theorem identChars_nil : identChars [] := by
  intro x hx
  simp at hx

theorem preLoop_ids : ∀ (body cur : Bytes), identChars cur →
    preLoop body cur = some body.length →
    ∃ (s : Bytes) (rest : List Bytes), preIdent (cur ++ s) ∧ (∀ x ∈ rest, preIdent x) ∧
      body = joinDots (s :: rest) := by
  intro body
  induction body with
  | nil =>
    intro cur hc h
    simp only [preLoop] at h
    split at h
    · exact absurd h (by simp)
    · rename_i hok
      refine ⟨[], [], ?_, by simp, rfl⟩
      rw [List.append_nil]
      exact (endOK_iff hc).1 hok
  | cons c cs ih =>
    intro cur hc h
    simp only [preLoop] at h
    split at h
    · split at h
      · exact absurd h (by simp)
      · simp at h
    · split at h
      · exact absurd h (by simp)
      · rename_i hid
        split at h
        · rename_i h46
          split at h
          · exact absurd h (by simp)
          · rename_i hok
            simp only [Option.map_eq_some', List.length_cons] at h
            obtain ⟨m, hm, hm'⟩ := h
            have hm2 : m = cs.length := by omega
            subst hm2
            obtain ⟨s, rest, hs, hrest, e⟩ := ih [] identChars_nil hm
            subst h46
            refine ⟨[], s :: rest, ?_, ?_, ?_⟩
            · rw [List.append_nil]
              exact (endOK_iff hc).1 hok
            · intro x hx
              rcases List.mem_cons.1 hx with rfl | hx
              · simpa using hs
              · exact hrest x hx
            · rw [joinDots_nil_cons, e]
        · rename_i h46
          simp only [Option.map_eq_some', List.length_cons] at h
          obtain ⟨m, hm, hm'⟩ := h
          have hm2 : m = cs.length := by omega
          subst hm2
          have hcid : isIdentChar c = true := by
            by_contra hn
            exact hid ⟨by simpa using hn, h46⟩
          obtain ⟨s, rest, hs, hrest, e⟩ := ih (cur ++ [c]) (identChars_snoc hc hcid) hm
          refine ⟨c :: s, rest, ?_, hrest, ?_⟩
          · simpa using hs
          · rw [joinDots_cons_cons, e]

theorem buildLoop_ids : ∀ (body cur : Bytes), identChars cur → buildLoop body cur = true →
    ∃ (s : Bytes) (rest : List Bytes), buildIdent (cur ++ s) ∧
      (∀ x ∈ rest, buildIdent x) ∧ body = joinDots (s :: rest) := by
  intro body
  induction body with
  | nil =>
    intro cur hc h
    simp only [buildLoop, decide_eq_true_eq] at h
    exact ⟨[], [], ⟨by simpa using h, by simpa using hc⟩, by simp, rfl⟩
  | cons c cs ih =>
    intro cur hc h
    simp only [buildLoop] at h
    split at h
    · exact absurd h (by simp)
    · rename_i hid
      split at h
      · rename_i h46
        split at h
        · exact absurd h (by simp)
        · rename_i hne
          obtain ⟨s, rest, hs, hrest, e⟩ := ih [] identChars_nil h
          subst h46
          refine ⟨[], s :: rest, ⟨by simpa using hne, by simpa using hc⟩, ?_, ?_⟩
          · intro x hx
            rcases List.mem_cons.1 hx with rfl | hx
            · simpa using hs
            · exact hrest x hx
          · rw [joinDots_nil_cons, e]
      · rename_i h46
        have hcid : isIdentChar c = true := by
          by_contra hn
          exact hid ⟨by simpa using hn, h46⟩
        obtain ⟨s, rest, hs, hrest, e⟩ := ih (cur ++ [c]) (identChars_snoc hc hcid) h
        refine ⟨c :: s, rest, ?_, hrest, ?_⟩
        · simpa using hs
        · rw [joinDots_cons_cons, e]

theorem grammar_of_validPrerelease {p : Bytes} (h : validPrerelease p) :
    grammarPrerelease p := by
  obtain ⟨body, rfl, hb⟩ := validPrerelease_body h
  obtain ⟨s, rest, hs, hrest, e⟩ := preLoop_ids body [] identChars_nil hb
  refine ⟨s :: rest, by simp, ?_, by rw [e]⟩
  intro x hx
  rcases List.mem_cons.1 hx with rfl | hx
  · simpa using hs
  · exact hrest x hx

theorem grammar_of_validBuild {b : Bytes} (h : validBuild b) : grammarBuild b := by
  unfold validBuild parseBuild at h
  split at h
  · rename_i body
    split at h
    · rename_i hl
      obtain ⟨s, rest, hs, hrest, e⟩ := buildLoop_ids body [] identChars_nil hl
      refine ⟨s :: rest, by simp, ?_, by rw [e]⟩
      intro x hx
      rcases List.mem_cons.1 hx with rfl | hx
      · simpa using hs
      · exact hrest x hx
    · exact absurd h (by simp)
  · exact absurd h (by simp)


theorem preLoop_joinDots : ∀ (rest : List Bytes) (s cur : Bytes), identChars s →
    endOK (cur ++ s) → (∀ x ∈ rest, preIdent x) →
    preLoop (joinDots (s :: rest)) cur = some (joinDots (s :: rest)).length := by
  intro rest
  induction rest with
  | nil =>
    intro s cur hs hok _
    have h := preLoop_identChars s cur [] hs
    rw [List.append_nil] at h
    have hok' : ¬ (cur ++ s = [] ∨ isBadNum (cur ++ s) = true) := hok
    simp only [joinDots, h, preLoop, if_neg hok', Option.map_some', Nat.zero_add]
  | cons t rest ih =>
    intro s cur hs hok hrest
    have ht : preIdent t := hrest t (by simp)
    have hJ := ih t [] ht.2.1 (by rw [List.nil_append]; exact (endOK_iff ht.2.1).2 ht)
      (fun x hx => hrest x (by simp [hx]))
    have e : joinDots (s :: t :: rest) = s ++ 46 :: joinDots (t :: rest) := rfl
    rw [e, preLoop_identChars s cur _ hs, preLoop_dot hok, hJ]
    simp only [Option.map_some', List.length_append, List.length_cons]
    congr 1
    omega

theorem grammarPrerelease_valid {p : Bytes} (h : grammarPrerelease p) : validPrerelease p := by
  obtain ⟨ids, hne, hids, rfl⟩ := h
  cases ids with
  | nil => exact absurd rfl hne
  | cons s rest =>
    have hs : preIdent s := hids s (by simp)
    exact validPrerelease_of_body (preLoop_joinDots rest s [] hs.2.1
      (by rw [List.nil_append]; exact (endOK_iff hs.2.1).2 hs)
      (fun x hx => hids x (by simp [hx])))

theorem buildLoop_identChars : ∀ (s cur rest : Bytes), identChars s →
    buildLoop (s ++ rest) cur = buildLoop rest (cur ++ s) := by
  intro s
  induction s with
  | nil => intro cur rest _; simp
  | cons c s ih =>
    intro cur rest hs
    have hc : isIdentChar c = true := hs c (by simp)
    have hne := isIdentChar_ne hc
    have hs' : identChars s := fun x hx => hs x (by simp [hx])
    simp only [List.cons_append, buildLoop, if_neg hne.2, List.append_eq]
    rw [if_neg (by simp [hc]), ih (cur ++ [c]) rest hs']
    simp

theorem buildLoop_joinDots : ∀ (rest : List Bytes) (s cur : Bytes), identChars s →
    cur ++ s ≠ [] → (∀ x ∈ rest, buildIdent x) →
    buildLoop (joinDots (s :: rest)) cur = true := by
  intro rest
  induction rest with
  | nil =>
    intro s cur hs hne _
    have h := buildLoop_identChars s cur [] hs
    rw [List.append_nil] at h
    simp only [joinDots, h, buildLoop, decide_eq_true_eq]
    exact hne
  | cons t rest ih =>
    intro s cur hs hne hrest
    have ht : buildIdent t := hrest t (by simp)
    have hJ := ih t [] ht.2 (by rw [List.nil_append]; exact ht.1)
      (fun x hx => hrest x (by simp [hx]))
    have e : joinDots (s :: t :: rest) = s ++ 46 :: joinDots (t :: rest) := rfl
    rw [e, buildLoop_identChars s cur _ hs]
    simp only [buildLoop, if_true, if_neg hne, hJ]
    simp

theorem grammarBuild_valid {b : Bytes} (h : grammarBuild b) : validBuild b := by
  obtain ⟨ids, hne, hids, rfl⟩ := h
  cases ids with
  | nil => exact absurd rfl hne
  | cons s rest =>
    have hs : buildIdent s := hids s (by simp)
    have := buildLoop_joinDots rest s [] hs.2 (by rw [List.nil_append]; exact hs.1)
      (fun x hx => hids x (by simp [hx]))
    simp [validBuild, parseBuild, this]

theorem fullVersion_parse {v : Bytes} (h : fullVersion v) :
    ∃ p, parse v = some p ∧ p.short = [] := by
  obtain ⟨X, Y, Z, PRE, B, hX, hY, hZ, hP, hB, rfl⟩ := h
  have hP' : PRE = [] ∨ validPrerelease PRE := hP.imp id grammarPrerelease_valid
  have hB' : B = [] ∨ validBuild B := hB.imp id grammarBuild_valid
  exact ⟨_, parse_version X Y Z PRE B hX hY hZ hP' hB', rfl⟩

theorem noDigitHead_nil : noDigitHead [] := by
  intro c hc
  simp at hc

theorem parse_short1 (X : Bytes) (hX : isNumeral X) :
    parse (str "v" ++ X) = some ⟨X, str "0", str "0", str ".0.0", [], []⟩ := by
  have h1 := parseInt_numeral X [] hX noDigitHead_nil
  rw [List.append_nil] at h1
  have e : str "v" ++ X = 118 :: X := rfl
  rw [e]
  simp only [parse, h1]
  simp

theorem parse_short2 (X Y : Bytes) (hX : isNumeral X) (hY : isNumeral Y) :
    parse (str "v" ++ X ++ str "." ++ Y) = some ⟨X, Y, str "0", str ".0", [], []⟩ := by
  have h1 := parseInt_numeral X (46 :: Y) hX (noDigitHead_cons (by omega))
  have h2 := parseInt_numeral Y [] hY noDigitHead_nil
  rw [List.append_nil] at h2
  have e : str "v" ++ X ++ str "." ++ Y = 118 :: (X ++ 46 :: Y) := by simp [str]
  rw [e]
  simp only [parse, h1, h2]
  simp

theorem shortVersion_parse {v : Bytes} (h : shortVersion v) :
    ∃ p, parse v = some p ∧ p.short ≠ [] := by
  obtain ⟨X, hX, rfl | ⟨Y, hY, rfl⟩⟩ := h
  · exact ⟨_, parse_short1 X hX, by show str ".0.0" ≠ []; decide⟩
  · exact ⟨_, parse_short2 X Y hX hY, by show str ".0" ≠ []; decide⟩

/-- What `parse` accepts with a non-empty `short`: `vMAJOR` or `vMAJOR.MINOR`. -/
theorem parse_inv_short {v : Bytes} {p : parsed} (h : parse v = some p) (hs : p.short ≠ []) :
    shortVersion v := by
  cases v with
  | nil => simp [parse] at h
  | cons c v1 =>
    simp only [parse] at h
    split at h
    · exact absurd h (by simp)
    · rename_i hc
      have hc' : c = 118 := by simpa using hc
      subst hc'
      split at h
      · exact absurd h (by simp)
      · rename_i major h1
        obtain ⟨e1, n1, _⟩ := parseInt_inv h1
        refine ⟨major, n1, Or.inl ?_⟩
        rw [e1]
        simp [str]
      · rename_i major c2 v3 h1
        obtain ⟨e1, n1, _⟩ := parseInt_inv h1
        split at h
        · exact absurd h (by simp)
        · rename_i hc2
          have hc2' : c2 = 46 := by simpa using hc2
          subst hc2'
          split at h
          · exact absurd h (by simp)
          · rename_i minor h2
            obtain ⟨e2, n2, _⟩ := parseInt_inv h2
            refine ⟨major, n1, Or.inr ⟨minor, n2, ?_⟩⟩
            rw [e1, e2]
            simp [str]
          · rename_i minor c4 v5 h2
            split at h
            · exact absurd h (by simp)
            · split at h
              · exact absurd h (by simp)
              · split at h
                · exact absurd h (by simp)
                · split at h
                  · exact absurd h (by simp)
                  · split at h
                    · exact absurd h (by simp)
                    · simp only [Option.some.injEq] at h
                      subst h
                      exact absurd rfl hs

/-- The strings `semver.IsValid` accepts are the full versions of the grammar
and the two shorthand forms. -/
theorem IsValid_iff (v : Bytes) : IsValid v = true ↔ fullVersion v ∨ shortVersion v := by
  constructor
  · intro h
    obtain ⟨p, hp⟩ := parse_of_IsValid h
    obtain ⟨n1, n2, n3, hP, hB, hshape⟩ := parse_inv hp
    rcases hshape with ⟨_, hv⟩ | ⟨hs, _⟩
    · exact Or.inl ⟨p.major, p.minor, p.patch, p.prerelease, p.build, n1, n2, n3,
        hP.imp id grammar_of_validPrerelease, hB.imp id grammar_of_validBuild, hv⟩
    · exact Or.inr (parse_inv_short hp hs)
  · rintro (h | h)
    · obtain ⟨p, hp, _⟩ := fullVersion_parse h
      simp [IsValid, hp]
    · obtain ⟨p, hp, _⟩ := shortVersion_parse h
      simp [IsValid, hp]

theorem not_fullVersion_of_short {v : Bytes} (h : shortVersion v) : ¬ fullVersion v := by
  intro hf
  obtain ⟨p, hp, hs⟩ := fullVersion_parse hf
  obtain ⟨q, hq, hs'⟩ := shortVersion_parse h
  rw [hp] at hq
  simp only [Option.some.injEq] at hq
  subst hq
  exact hs' hs


/-! ## `ShortenSHA1` -/

theorem AllHex_iff (r : Bytes) : AllHex r = true ↔ ∀ c ∈ r, lowerHex c := by
  induction r with
  | nil => simp [AllHex]
  | cons c rest ih =>
    by_cases h : lowerHex c
    · have h' : (48 ≤ c ∧ c ≤ 57) ∨ (97 ≤ c ∧ c ≤ 102) := h
      simp [AllHex, h', ih, h]
    · have h' : ¬ ((48 ≤ c ∧ c ≤ 57) ∨ (97 ≤ c ∧ c ≤ 102)) := h
      simp only [AllHex, if_neg h']
      simp [h]

theorem ShortenSHA1_eq (r : Bytes) :
    ShortenSHA1 r = if r.length = 40 ∧ (∀ c ∈ r, lowerHex c) then r.take 12 else r := by
  unfold ShortenSHA1
  by_cases h : r.length = 40 ∧ ∀ c ∈ r, lowerHex c
  · have h1 : AllHex r = true := (AllHex_iff r).2 h.2
    rw [if_pos h]
    simp [h1, h.1]
  · rw [if_neg h]
    by_cases h1 : AllHex r = true
    · have h2 : r.length ≠ 40 := fun h2 => h ⟨h2, (AllHex_iff r).1 h1⟩
      simp [h2]
    · simp [h1]

/-- C7: a revision of exactly 40 bytes, all in `[0-9a-f]`, is cut to its first
12 bytes (length exactly 12); every other revision is returned unchanged; and
the result is never longer than `max 12 (len r)`. -/
theorem ShortenSHA1_spec (r : Bytes) :
    ((r.length = 40 ∧ ∀ c ∈ r, lowerHex c) →
        ShortenSHA1 r = r.take 12 ∧ (ShortenSHA1 r).length = 12) ∧
    (¬ (r.length = 40 ∧ ∀ c ∈ r, lowerHex c) → ShortenSHA1 r = r) ∧
    (ShortenSHA1 r).length ≤ max 12 r.length := by
  have key : ShortenSHA1 r
      = if r.length = 40 ∧ (∀ c ∈ r, lowerHex c) then r.take 12 else r := by
    unfold ShortenSHA1
    by_cases h : r.length = 40 ∧ ∀ c ∈ r, lowerHex c
    · have h1 : AllHex r = true := (AllHex_iff r).2 h.2
      rw [if_pos h]
      simp [h1, h.1]
    · rw [if_neg h]
      by_cases h1 : AllHex r = true
      · have h2 : r.length ≠ 40 := fun h2 => h ⟨h2, (AllHex_iff r).1 h1⟩
        simp [h2]
      · simp [h1]
  refine ⟨?_, ?_, ?_⟩
  · intro h
    rw [key, if_pos h]
    exact ⟨rfl, by rw [List.length_take, h.1]; rfl⟩
  · intro h
    rw [key, if_neg h]
  · rw [key]
    split
    · rw [List.length_take]; omega
    · omega

/-- C7 at a 40-digit lower-case hexadecimal revision. -/
theorem ShortenSHA1_spec_witness :
    ShortenSHA1 (str "0123456789abcdef0123456789abcdef01234567") = str "0123456789ab" ∧
    (ShortenSHA1 (str "0123456789abcdef0123456789abcdef01234567")).length = 12 ∧
    ShortenSHA1 (str "0123456789ABCDEF0123456789abcdef01234567")
      = str "0123456789ABCDEF0123456789abcdef01234567" :=
  ⟨((ShortenSHA1_spec (str "0123456789abcdef0123456789abcdef01234567")).1 (by decide)).1,
   ((ShortenSHA1_spec (str "0123456789abcdef0123456789abcdef01234567")).1 (by decide)).2,
   (ShortenSHA1_spec (str "0123456789ABCDEF0123456789abcdef01234567")).2.1 (by decide)⟩

/-! ## `incDecimal`: the claims -/

/-- C8: on a non-empty string of decimal digits `incDecimal` returns a string
of decimal digits whose value is one more and whose length is the same or one
more; `"099"` gives `"100"`, `"9"` gives `"10"`, `"000"` gives `"001"`. -/
theorem incDecimal_adds_one :
    (∀ d : Bytes, d ≠ [] → allDigits d →
      ∃ r, incDecimal d = some r ∧ allDigits r ∧ decVal r = decVal d + 1 ∧
        (r.length = d.length ∨ r.length = d.length + 1)) ∧
    incDecimal (str "099") = some (str "100") ∧
    incDecimal (str "9") = some (str "10") ∧
    incDecimal (str "000") = some (str "001") := by
  refine ⟨?_, by decide, by decide, by decide⟩
  intro d hne hd
  rcases nines_or_carry d with ⟨n, rfl⟩ | ⟨q, c, k, hc, rfl⟩
  · cases n with
    | zero => exact absurd rfl hne
    | succ n =>
      refine ⟨_, incDecimal_all_nines n, ?_, ?_, Or.inr (by simp)⟩
      · exact allDigits_cons.2 ⟨by omega, allDigits_zeros _⟩
      · have h1 : decVal (49 :: List.replicate (n + 1) 48)
            = decVal [49] * 10 ^ (n + 1) + decVal (List.replicate (n + 1) 48) := by
          have := decVal_append [49] (List.replicate (n + 1) 48)
          simpa using this
        have h2 : decVal [49] = 1 := by decide
        rw [h1, decVal_zeros, h2, ← decVal_nines (n + 1)]
        omega
  · have hq := (allDigits_append.1 hd).1
    have hc' := (allDigits_cons.1 (allDigits_append.1 hd).2).1
    have hmod : (c + 1) % 256 = c + 1 := by omega
    refine ⟨_, incDecimal_carry q c k hc, ?_, ?_, Or.inl (by simp)⟩
    · rw [hmod]
      exact allDigits_append.2 ⟨hq, allDigits_cons.2 ⟨by omega, allDigits_zeros _⟩⟩
    · rw [hmod, decVal_append, decVal_append]
      have e1 : decVal ((c + 1) :: List.replicate k 48)
          = decVal [c + 1] * 10 ^ k + decVal (List.replicate k 48) := by
        have := decVal_append [c + 1] (List.replicate k 48)
        simpa using this
      have e2 : decVal (c :: List.replicate k 57)
          = decVal [c] * 10 ^ k + decVal (List.replicate k 57) := by
        have := decVal_append [c] (List.replicate k 57)
        simpa using this
      have e3 : decVal [c + 1] = decVal [c] + 1 := by
        simp only [decVal, List.foldl_cons, List.foldl_nil]; omega
      have e4 := decVal_nines k
      rw [e1, e2, e3, decVal_zeros]
      simp only [List.length_cons, List.length_replicate]
      have : (decVal [c] + 1) * 10 ^ k = decVal [c] * 10 ^ k + 10 ^ k := by ring
      omega

/-- C8 at the digit string `"1999"`. -/
theorem incDecimal_adds_one_witness :
    ∃ r, incDecimal (str "1999") = some r ∧ allDigits r ∧
      decVal r = decVal (str "1999") + 1 ∧
      (r.length = (str "1999").length ∨ r.length = (str "1999").length + 1) :=
  incDecimal_adds_one.1 (str "1999") (by decide) (by decide)

/-- C9: on `p ++ [c] ++ 9^k` with `c` a digit from `'0'` to `'8'`, `incDecimal`
returns `p ++ [c+1] ++ 0^k`: the trailing nines become zeros, the digit before
them goes up by one, what is to its left is unchanged, the length is unchanged. -/
theorem incDecimal_carry_step (p : Bytes) (c k : Nat) (hc : 48 ≤ c ∧ c ≤ 56) :
    incDecimal (p ++ c :: List.replicate k 57) = some (p ++ (c + 1) :: List.replicate k 48) ∧
    (p ++ (c + 1) :: List.replicate k 48).length = (p ++ c :: List.replicate k 57).length := by
  have hmod : (c + 1) % 256 = c + 1 := by omega
  refine ⟨?_, by simp⟩
  rw [incDecimal_carry p c k (by omega), hmod]

/-- C9 at `"12" ++ "3" ++ "99"`. -/
theorem incDecimal_carry_step_witness :
    incDecimal (str "12399") = some (str "12400") ∧
    (str "12400").length = (str "12399").length :=
  incDecimal_carry_step (str "12") 51 2 (by decide)

/-- C10: `incDecimal` of `n ≥ 1` nines is `"1"` followed by `n` zeros (length
`n + 1`), so `"99"` gives `"100"` and `"9"` gives `"10"`; and on any non-empty
input the result is one byte longer than the input exactly when every input
byte is `'9'`. -/
theorem incDecimal_overflow :
    (∀ n : Nat, 1 ≤ n →
      incDecimal (List.replicate n 57) = some (49 :: List.replicate n 48) ∧
      (49 :: List.replicate n 48).length = n + 1) ∧
    (∀ d : Bytes, d ≠ [] →
      ∃ r, incDecimal d = some r ∧ (r.length = d.length + 1 ↔ ∀ c ∈ d, c = 57)) ∧
    incDecimal (str "99") = some (str "100") ∧
    incDecimal (str "9") = some (str "10") := by
  refine ⟨?_, ?_, by decide, by decide⟩
  · intro n hn
    obtain ⟨m, rfl⟩ : ∃ m, n = m + 1 := ⟨n - 1, by omega⟩
    exact ⟨incDecimal_all_nines m, by simp⟩
  · intro d hne
    rcases nines_or_carry d with ⟨n, rfl⟩ | ⟨q, c, k, hc, rfl⟩
    · cases n with
      | zero => exact absurd rfl hne
      | succ n =>
        refine ⟨_, incDecimal_all_nines n, ?_⟩
        constructor
        · intro _ c hc; exact List.eq_of_mem_replicate hc
        · intro _; simp
    · refine ⟨_, incDecimal_carry q c k hc, ?_⟩
      constructor
      · intro h; simp at h
      · intro h
        exact absurd (h c (by simp)) hc

/-- C10 at four nines and at `"909"`. -/
theorem incDecimal_overflow_witness :
    (incDecimal (str "9999") = some (str "10000") ∧ (str "10000").length = 4 + 1) ∧
    (∃ r, incDecimal (str "909") = some r ∧
      (r.length = (str "909").length + 1 ↔ ∀ c ∈ str "909", c = 57)) :=
  ⟨incDecimal_overflow.1 4 (by decide), incDecimal_overflow.2.1 (str "909") (by decide)⟩

/-! ## `PseudoVersion`: the claims -/

/-- C3: for naturals X, Y, Z in decimal and build metadata B (empty or valid),
`PseudoVersion major ("vX.Y.Z" ++ B) t rev` is
`"vX.Y." ++ decimal (Z+1) ++ "-0." ++ segment ++ B`, the segment being the UTC
timestamp of `t`, `"-"` and `rev`; `"v1.2.3"` gives
`"v1.2.4-0.20230102030405-abcdef012345"` and `"v1.2.9"` with rev `"beef"` gives
`"v1.2.10-0.20230102030405-beef"` at 2023-01-02T03:04:05Z. -/
theorem PseudoVersion_release_form :
    (∀ (X Y Z : Nat) (B major : Bytes) (t : Time) (rev : Bytes), (B = [] ∨ validBuild B) →
      PseudoVersion major (str "v" ++ dec X ++ str "." ++ dec Y ++ str "." ++ dec Z ++ B) t rev
        = some (str "v" ++ dec X ++ str "." ++ dec Y ++ str "." ++ dec (Z + 1) ++ str "-0."
            ++ (t.UTC.Format ++ str "-" ++ rev) ++ B)) ∧
    PseudoVersion (str "") (str "v1.2.3") t2023 (str "abcdef012345")
      = some (str "v1.2.4-0.20230102030405-abcdef012345") ∧
    PseudoVersion (str "") (str "v1.2.9") t2023 (str "beef")
      = some (str "v1.2.10-0.20230102030405-beef") := by
  refine ⟨?_, by decide, by decide⟩
  intro X Y Z B major t rev hB
  have hp := parse_version (dec X) (dec Y) (dec Z) [] B (dec_isNumeral X) (dec_isNumeral Y)
    (dec_isNumeral Z) (Or.inl rfl) hB
  have h := PseudoVersion_valid major _ t rev hp
  simp only [ne_eq, not_true_eq_false, if_false, incDecimal_dec, Option.map_some'] at h
  simp only [version, segment, List.append_nil, List.append_assoc] at h
  simp only [List.append_assoc]
  exact h

/-- C3 at `"v1.2.9+meta"` with major `"v7"`. -/
theorem PseudoVersion_release_form_witness :
    PseudoVersion (str "v7") (str "v" ++ dec 1 ++ str "." ++ dec 2 ++ str "." ++ dec 9
        ++ str "+meta") t2023 (str "beef")
      = some (str "v" ++ dec 1 ++ str "." ++ dec 2 ++ str "." ++ dec (9 + 1) ++ str "-0."
          ++ (t2023.UTC.Format ++ str "-" ++ str "beef") ++ str "+meta") :=
  PseudoVersion_release_form.1 1 2 9 (str "+meta") (str "v7") t2023 (str "beef")
    (Or.inr (by decide))

/-- C4: for a valid version `older = "vX.Y.Z" ++ PRE ++ B` with a pre-release
label PRE and build metadata B (empty or valid), the canonical form is
`C = "vX.Y.Z" ++ PRE`, the build suffix is B, and `PseudoVersion` returns
`C ++ ".0." ++ segment ++ B`: the patch is not incremented and `major` is not
used; `"v1.2.3-rc.1+meta"` with rev `"rev"` gives
`"v1.2.3-rc.1.0." ++ segment ++ "+meta"`. -/
theorem PseudoVersion_prerelease_form :
    (∀ (X Y Z PRE B major : Bytes) (t : Time) (rev : Bytes),
      isNumeral X → isNumeral Y → isNumeral Z → validPrerelease PRE →
      (B = [] ∨ validBuild B) →
      Canonical (str "v" ++ X ++ str "." ++ Y ++ str "." ++ Z ++ PRE ++ B)
        = str "v" ++ X ++ str "." ++ Y ++ str "." ++ Z ++ PRE ∧
      Build (str "v" ++ X ++ str "." ++ Y ++ str "." ++ Z ++ PRE ++ B) = B ∧
      PseudoVersion major (str "v" ++ X ++ str "." ++ Y ++ str "." ++ Z ++ PRE ++ B) t rev
        = some (str "v" ++ X ++ str "." ++ Y ++ str "." ++ Z ++ PRE ++ str ".0."
            ++ (t.UTC.Format ++ str "-" ++ rev) ++ B)) ∧
    (∀ (major : Bytes) (t : Time),
      PseudoVersion major (str "v1.2.3-rc.1+meta") t (str "rev")
        = some (str "v1.2.3-rc.1.0." ++ (t.UTC.Format ++ str "-" ++ str "rev")
            ++ str "+meta")) := by
  have main : ∀ (X Y Z PRE B major : Bytes) (t : Time) (rev : Bytes),
      isNumeral X → isNumeral Y → isNumeral Z → validPrerelease PRE →
      (B = [] ∨ validBuild B) →
      Canonical (str "v" ++ X ++ str "." ++ Y ++ str "." ++ Z ++ PRE ++ B)
        = str "v" ++ X ++ str "." ++ Y ++ str "." ++ Z ++ PRE ∧
      Build (str "v" ++ X ++ str "." ++ Y ++ str "." ++ Z ++ PRE ++ B) = B ∧
      PseudoVersion major (str "v" ++ X ++ str "." ++ Y ++ str "." ++ Z ++ PRE ++ B) t rev
        = some (str "v" ++ X ++ str "." ++ Y ++ str "." ++ Z ++ PRE ++ str ".0."
            ++ (t.UTC.Format ++ str "-" ++ rev) ++ B) := by
    intro X Y Z PRE B major t rev hX hY hZ hP hB
    have hp := parse_version X Y Z PRE B hX hY hZ (Or.inr hP) hB
    have hne : PRE ≠ [] := by
      obtain ⟨body, rfl, _⟩ := validPrerelease_body hP
      simp
    obtain ⟨hC, hBd, _⟩ := classify hp
    have h := PseudoVersion_valid major _ t rev hp
    simp only [ne_eq, hne, not_false_eq_true, if_true] at h
    simp only [version, segment, List.append_nil] at h hC hBd
    exact ⟨hC, hBd, h⟩
  refine ⟨main, ?_⟩
  intro major t
  have := (main (str "1") (str "2") (str "3") (str "-rc.1") (str "+meta") major t (str "rev")
    (by decide) (by decide) (by decide) (by decide) (Or.inr (by decide))).2.2
  simpa [str] using this

/-- C4 at `"v1.2.3-rc.1+meta"`, major `"v9"`, rev `"rev"`. -/
theorem PseudoVersion_prerelease_form_witness :
    PseudoVersion (str "v9") (str "v" ++ str "1" ++ str "." ++ str "2" ++ str "." ++ str "3"
        ++ str "-rc.1" ++ str "+meta") t2023 (str "rev")
      = some (str "v" ++ str "1" ++ str "." ++ str "2" ++ str "." ++ str "3" ++ str "-rc.1"
          ++ str ".0." ++ (t2023.UTC.Format ++ str "-" ++ str "rev") ++ str "+meta") :=
  (PseudoVersion_prerelease_form.1 (str "1") (str "2") (str "3") (str "-rc.1") (str "+meta")
    (str "v9") t2023 (str "rev") (by decide) (by decide) (by decide) (by decide)
    (Or.inr (by decide))).2.2

/-- C5, as the code has it: when `older` is neither a full version
`vMAJOR.MINOR.PATCH[-PRERELEASE][+BUILD]` nor the shorthand `vMAJOR` or
`vMAJOR.MINOR` (so for `""`, `"not-a-version"`, `"v1.2.3-"`, a malformed string
with a `"+..."` suffix, a version written without its `"v"`), `PseudoVersion`
returns `m ++ ".0.0-" ++ segment` with `m` the major, or `"v0"` when the major
is empty; nothing is appended after the segment and there is no panic;
`PseudoVersion "" "" 2023-01-02T03:04:05Z "abcdef012345"` is
`"v0.0.0-20230102030405-abcdef012345"`.  The shorthand forms are read as
`vMAJOR.0.0` and `vMAJOR.MINOR.0` and give the release form. -/
theorem PseudoVersion_form1 :
    (∀ (major older : Bytes) (t : Time) (rev : Bytes),
      ¬ fullVersion older → ¬ shortVersion older →
      PseudoVersion major older t rev
        = some ((if major = [] then str "v0" else major) ++ str ".0.0-"
            ++ (t.UTC.Format ++ str "-" ++ rev))) ∧
    (¬ fullVersion (str "") ∧ ¬ shortVersion (str "")) ∧
    (¬ fullVersion (str "not-a-version") ∧ ¬ shortVersion (str "not-a-version")) ∧
    (¬ fullVersion (str "v1.2.3-") ∧ ¬ shortVersion (str "v1.2.3-")) ∧
    (¬ fullVersion (str "v1.2.x+meta") ∧ ¬ shortVersion (str "v1.2.x+meta")) ∧
    (¬ fullVersion (str "1.2.3") ∧ ¬ shortVersion (str "1.2.3")) ∧
    PseudoVersion (str "") (str "") t2023 (str "abcdef012345")
      = some (str "v0.0.0-20230102030405-abcdef012345") ∧
    PseudoVersion (str "v3") (str "v1.2.x+meta") t2023 (str "abcdef012345")
      = some (str "v3.0.0-20230102030405-abcdef012345") ∧
    (∀ (X major : Bytes) (t : Time) (rev : Bytes), isNumeral X →
      PseudoVersion major (str "v" ++ X) t rev
        = some (str "v" ++ X ++ str ".0.1-0." ++ (t.UTC.Format ++ str "-" ++ rev))) ∧
    (∀ (X Y major : Bytes) (t : Time) (rev : Bytes), isNumeral X → isNumeral Y →
      PseudoVersion major (str "v" ++ X ++ str "." ++ Y) t rev
        = some (str "v" ++ X ++ str "." ++ Y ++ str ".1-0."
            ++ (t.UTC.Format ++ str "-" ++ rev))) := by
  have inv : ∀ v : Bytes, IsValid v = false → ¬ fullVersion v ∧ ¬ shortVersion v := by
    intro v h
    have hn : ¬ (fullVersion v ∨ shortVersion v) := by
      intro hu
      rw [(IsValid_iff v).2 hu] at h
      exact absurd h (by simp)
    exact ⟨fun hf => hn (Or.inl hf), fun hs => hn (Or.inr hs)⟩
  have one : incDecimal (str "0") = some (str "1") := by decide
  refine ⟨?_, inv _ (by decide), inv _ (by decide), inv _ (by decide), inv _ (by decide),
    inv _ (by decide), by decide, by decide, ?_, ?_⟩
  · intro major older t rev hf hs
    have hp : parse older = none := by
      cases hq : parse older with
      | none => rfl
      | some p =>
        have hv : IsValid older = true := by simp [IsValid, hq]
        rcases (IsValid_iff older).1 hv with h | h
        · exact absurd h hf
        · exact absurd h hs
    exact PseudoVersion_invalid major older t rev hp
  · intro X major t rev hX
    rw [PseudoVersion_valid major _ t rev (parse_short1 X hX)]
    simp only [ne_eq, not_true_eq_false, if_false, one, Option.map_some']
    simp [version, segment, str]
  · intro X Y major t rev hX hY
    rw [PseudoVersion_valid major _ t rev (parse_short2 X Y hX hY)]
    simp only [ne_eq, not_true_eq_false, if_false, one, Option.map_some']
    simp [version, segment, str]

/-- C5 at `older = "v1.2.3-"`, major `"v2"`, and at the shorthand `"v7"`. -/
theorem PseudoVersion_form1_witness :
    PseudoVersion (str "v2") (str "v1.2.3-") t2023 (str "abc")
      = some ((if str "v2" = [] then str "v0" else str "v2") ++ str ".0.0-"
          ++ (t2023.UTC.Format ++ str "-" ++ str "abc")) ∧
    PseudoVersion (str "v2") (str "v" ++ str "7") t2023 (str "abc")
      = some (str "v" ++ str "7" ++ str ".0.1-0."
          ++ (t2023.UTC.Format ++ str "-" ++ str "abc")) :=
  ⟨PseudoVersion_form1.1 (str "v2") (str "v1.2.3-") t2023 (str "abc")
    PseudoVersion_form1.2.2.2.1.1 PseudoVersion_form1.2.2.2.1.2,
   PseudoVersion_form1.2.2.2.2.2.2.2.2.1 (str "7") (str "v2") t2023 (str "abc") (by decide)⟩

/-- C5 as stated fails: `"v1.2"` and `"v1"` are not versions
`vMAJOR.MINOR.PATCH`, yet `PseudoVersion` does not return Form 1 on them but
the release forms `"v1.2.1-0. ..."` and `"v1.0.1-0. ..."`. -/
theorem PseudoVersion_shorthand_not_form1 :
    (¬ fullVersion (str "v1.2") ∧
      PseudoVersion (str "") (str "v1.2") t2023 (str "abcdef012345")
        = some (str "v1.2.1-0.20230102030405-abcdef012345") ∧
      PseudoVersion (str "") (str "v1.2") t2023 (str "abcdef012345")
        ≠ some (str "v0.0.0-20230102030405-abcdef012345")) ∧
    (¬ fullVersion (str "v1") ∧
      PseudoVersion (str "") (str "v1") t2023 (str "abcdef012345")
        = some (str "v1.0.1-0.20230102030405-abcdef012345") ∧
      PseudoVersion (str "") (str "v1") t2023 (str "abcdef012345")
        ≠ some (str "v0.0.0-20230102030405-abcdef012345")) :=
  ⟨⟨not_fullVersion_of_short ⟨str "1", by decide, Or.inr ⟨str "2", by decide, rfl⟩⟩,
     by decide, by decide⟩,
   ⟨not_fullVersion_of_short ⟨str "1", by decide, Or.inl rfl⟩, by decide, by decide⟩⟩

/-- C1: for a release `older = "vX.Y.Z" ++ B` (X, Y, Z naturals in decimal, B
empty or valid build metadata), any major, any time and any rev made of ASCII
letters, digits and hyphens, `PseudoVersion` returns a version that
`semver.Compare` puts strictly above `older` and strictly below the release
`vX.Y.(Z+1)`. -/
theorem PseudoVersion_between_releases (X Y Z : Nat) (B major : Bytes) (t : Time)
    (rev : Bytes) (hB : B = [] ∨ validBuild B) (hr : identChars rev) :
    ∃ pv,
      PseudoVersion major (str "v" ++ dec X ++ str "." ++ dec Y ++ str "." ++ dec Z ++ B) t rev
        = some pv ∧
      Compare pv (str "v" ++ dec X ++ str "." ++ dec Y ++ str "." ++ dec Z ++ B) = 1 ∧
      Compare pv (str "v" ++ dec X ++ str "." ++ dec Y ++ str "." ++ dec (Z + 1)) = -1 := by
  have hX := dec_isNumeral X
  have hY := dec_isNumeral Y
  have ho := parse_version (dec X) (dec Y) (dec Z) [] B hX hY (dec_isNumeral Z) (Or.inl rfl) hB
  have hn := parse_version (dec X) (dec Y) (dec (Z + 1)) [] [] hX hY (dec_isNumeral (Z + 1))
    (Or.inl rfl) (Or.inl rfl)
  have hv := parse_version (dec X) (dec Y) (dec (Z + 1)) (str "-0." ++ segment t rev) B hX hY
    (dec_isNumeral (Z + 1)) (Or.inr (validPrerelease_form2 t hr)) hB
  have h := PseudoVersion_valid major _ t rev ho
  simp only [ne_eq, not_true_eq_false, if_false, incDecimal_dec, Option.map_some'] at h
  have hgt : compareInt (dec (Z + 1)) (dec Z) = 1 :=
    compareInt_incDecimal (dec_allDigits Z) (incDecimal_dec Z)
  have hne : str "-0." ++ segment t rev ≠ [] := by simp [str]
  have e1 : str "v" ++ dec X ++ str "." ++ dec Y ++ str "." ++ dec Z ++ B
      = version (dec X) (dec Y) (dec Z) [] B := by simp [version]
  have e2 : str "v" ++ dec X ++ str "." ++ dec Y ++ str "." ++ dec (Z + 1)
      = version (dec X) (dec Y) (dec (Z + 1)) [] [] := by simp [version]
  rw [e1, e2]
  refine ⟨_, h, ?_, ?_⟩
  · rw [Compare_parsed hv ho]
    simp [compareInt_self, hgt]
  · rw [Compare_parsed hv hn]
    simp [compareInt_self, comparePrerelease_release hne]

/-- C1 at `older = "v1.2.9+meta"`, major `"v1"`, rev `"abcdef012345"`. -/
theorem PseudoVersion_between_releases_witness :
    ∃ pv,
      PseudoVersion (str "v1") (str "v" ++ dec 1 ++ str "." ++ dec 2 ++ str "." ++ dec 9
        ++ str "+meta") t2023 (str "abcdef012345") = some pv ∧
      Compare pv (str "v" ++ dec 1 ++ str "." ++ dec 2 ++ str "." ++ dec 9 ++ str "+meta") = 1 ∧
      Compare pv (str "v" ++ dec 1 ++ str "." ++ dec 2 ++ str "." ++ dec (9 + 1)) = -1 :=
  PseudoVersion_between_releases 1 2 9 (str "+meta") (str "v1") t2023 (str "abcdef012345")
    (Or.inr (by decide)) (by decide)

/-- C6: for a valid pre-release `older = "vX.Y.Z" ++ PRE ++ B` (PRE a valid
pre-release label, B empty or valid build metadata), any major, any time and
any rev made of ASCII letters, digits and hyphens, `PseudoVersion` returns a
version that `semver.Compare` puts strictly above `older` and strictly below
the release `vX.Y.Z`. -/
theorem PseudoVersion_between_prerelease (X Y Z PRE B major : Bytes) (t : Time) (rev : Bytes)
    (hX : isNumeral X) (hY : isNumeral Y) (hZ : isNumeral Z) (hP : validPrerelease PRE)
    (hB : B = [] ∨ validBuild B) (hr : identChars rev) :
    ∃ pv,
      PseudoVersion major (str "v" ++ X ++ str "." ++ Y ++ str "." ++ Z ++ PRE ++ B) t rev
        = some pv ∧
      Compare pv (str "v" ++ X ++ str "." ++ Y ++ str "." ++ Z ++ PRE ++ B) = 1 ∧
      Compare pv (str "v" ++ X ++ str "." ++ Y ++ str "." ++ Z) = -1 := by
  have hne : PRE ≠ [] := by
    obtain ⟨body, rfl, _⟩ := validPrerelease_body hP
    simp
  have ho := parse_version X Y Z PRE B hX hY hZ (Or.inr hP) hB
  have hn := parse_version X Y Z [] [] hX hY hZ (Or.inl rfl) (Or.inl rfl)
  have hv := parse_version X Y Z (PRE ++ str ".0." ++ segment t rev) B hX hY hZ
    (Or.inr (validPrerelease_form4 t hP hr)) hB
  have h := PseudoVersion_valid major _ t rev ho
  simp only [ne_eq, hne, not_false_eq_true, if_true] at h
  have e0 : version X Y Z PRE [] ++ str ".0." ++ segment t rev ++ B
      = version X Y Z (PRE ++ str ".0." ++ segment t rev) B := by simp [version]
  have e1 : str "v" ++ X ++ str "." ++ Y ++ str "." ++ Z ++ PRE ++ B
      = version X Y Z PRE B := rfl
  have e2 : str "v" ++ X ++ str "." ++ Y ++ str "." ++ Z = version X Y Z [] [] := by
    simp [version]
  have hne2 : PRE ++ str ".0." ++ segment t rev ≠ [] := by simp [hne]
  have hext : comparePrerelease (PRE ++ str ".0." ++ segment t rev) PRE = 1 := by
    have := comparePrerelease_extend (48 :: 46 :: segment t rev) hne
    simpa [str] using this
  rw [e1, e2]
  rw [e0] at h
  refine ⟨_, h, ?_, ?_⟩
  · rw [Compare_parsed hv ho]
    simp only [compareInt_self, ne_eq, not_true_eq_false, if_false, hext]
  · rw [Compare_parsed hv hn]
    simp only [compareInt_self, ne_eq, not_true_eq_false, if_false,
      comparePrerelease_release hne2]

/-- C6 at `older = "v1.2.3-rc.1+meta"`, major `"v1"`, rev `"abcdef012345"`. -/
theorem PseudoVersion_between_prerelease_witness :
    ∃ pv,
      PseudoVersion (str "v1") (str "v" ++ str "1" ++ str "." ++ str "2" ++ str "." ++ str "3"
        ++ str "-rc.1" ++ str "+meta") t2023 (str "abcdef012345") = some pv ∧
      Compare pv (str "v" ++ str "1" ++ str "." ++ str "2" ++ str "." ++ str "3"
        ++ str "-rc.1" ++ str "+meta") = 1 ∧
      Compare pv (str "v" ++ str "1" ++ str "." ++ str "2" ++ str "." ++ str "3") = -1 :=
  PseudoVersion_between_prerelease (str "1") (str "2") (str "3") (str "-rc.1") (str "+meta")
    (str "v1") t2023 (str "abcdef012345") (by decide) (by decide) (by decide) (by decide)
    (Or.inr (by decide)) (by decide)

/-- C2, as the code has it: when `major` is empty or `"v"` followed by a
decimal numeral without a superfluous leading zero, and `rev` is made of ASCII
letters, digits and hyphens, then for every `older` (valid or not) and every
time `PseudoVersion` returns a string that `semver.IsValid` accepts. -/
theorem PseudoVersion_output_valid (major older : Bytes) (t : Time) (rev : Bytes)
    (hm : major = [] ∨ ∃ M, isNumeral M ∧ major = str "v" ++ M) (hr : identChars rev) :
    ∃ pv, PseudoVersion major older t rev = some pv ∧ IsValid pv = true := by
  cases hp : parse older with
  | none =>
    rw [PseudoVersion_invalid major older t rev hp]
    refine ⟨_, rfl, ?_⟩
    obtain ⟨M, hM, e⟩ : ∃ M, isNumeral M ∧ (if major = [] then str "v0" else major)
        = str "v" ++ M := by
      rcases hm with rfl | ⟨M, hM, rfl⟩
      · exact ⟨str "0", by decide, by decide⟩
      · exact ⟨M, hM, by simp [str]⟩
    have hv := parse_version M (str "0") (str "0") (45 :: segment t rev) [] hM (by decide)
      (by decide) (Or.inr (validPrerelease_form1 t hr)) (Or.inl rfl)
    have e2 : (if major = [] then str "v0" else major) ++ str ".0.0-" ++ segment t rev
        = version M (str "0") (str "0") (45 :: segment t rev) [] := by
      rw [e]; simp [version, str]
    rw [e2]
    simp [IsValid, hv]
  | some p =>
    obtain ⟨n1, n2, n3, hP, hB, _⟩ := parse_inv hp
    rw [PseudoVersion_valid major older t rev hp]
    by_cases hpre : p.prerelease = []
    · obtain ⟨q, hq, hqn⟩ := incDecimal_numeral n3
      rw [if_neg (by simp [hpre]), hq]
      refine ⟨_, rfl, ?_⟩
      have hv := parse_version p.major p.minor q (str "-0." ++ segment t rev) p.build n1 n2 hqn
        (Or.inr (validPrerelease_form2 t hr)) hB
      simp [IsValid, hv]
    · rw [if_pos hpre]
      refine ⟨_, rfl, ?_⟩
      have hP' : validPrerelease p.prerelease := by
        rcases hP with h | h
        · exact absurd h hpre
        · exact h
      have hv := parse_version p.major p.minor p.patch
        (p.prerelease ++ str ".0." ++ segment t rev) p.build n1 n2 n3
        (Or.inr (validPrerelease_form4 t hP' hr)) hB
      have e0 : version p.major p.minor p.patch p.prerelease [] ++ str ".0." ++ segment t rev
          ++ p.build
          = version p.major p.minor p.patch (p.prerelease ++ str ".0." ++ segment t rev)
              p.build := by simp [version]
      rw [e0]
      simp only [IsValid, hv, Option.isSome_some]

/-- C2 at an `older` that is not a version, major `"v2"`, rev `"abcdef012345"`. -/
theorem PseudoVersion_output_valid_witness :
    ∃ pv, PseudoVersion (str "v2") (str "not-a-version") t2023 (str "abcdef012345") = some pv ∧
      IsValid pv = true :=
  PseudoVersion_output_valid (str "v2") (str "not-a-version") t2023 (str "abcdef012345")
    (Or.inr ⟨str "2", by decide, by decide⟩) (by decide)

/-- C2 as stated fails: a rev with a blank in it, and a major with a leading
zero, each give an output that is not a valid semantic version. -/
theorem PseudoVersion_output_invalid :
    (PseudoVersion (str "") (str "v1.2.3") t2023 (str "a b")
        = some (str "v1.2.4-0.20230102030405-a b") ∧
      IsValid (str "v1.2.4-0.20230102030405-a b") = false) ∧
    (PseudoVersion (str "v01") (str "") t2023 (str "abcdef012345")
        = some (str "v01.0.0-20230102030405-abcdef012345") ∧
      IsValid (str "v01.0.0-20230102030405-abcdef012345") = false) := by
  decide


/-- C11: for every length `n`, `incDecimal` is injective on the digit strings of
length `n` that are not all nines, and the strings it returns on them are
exactly the digit strings of length `n` that are not all zeros. -/
theorem incDecimal_bijection (n : Nat) :
    (∀ d1 d2 : Bytes,
      d1.length = n → allDigits d1 → ¬ (∀ c ∈ d1, c = 57) →
      d2.length = n → allDigits d2 → ¬ (∀ c ∈ d2, c = 57) →
      incDecimal d1 = incDecimal d2 → d1 = d2) ∧
    (∀ r : Bytes,
      (∃ d : Bytes, d.length = n ∧ allDigits d ∧ ¬ (∀ c ∈ d, c = 57) ∧
        incDecimal d = some r) ↔
      (r.length = n ∧ allDigits r ∧ ¬ (∀ c ∈ r, c = 48))) := by
  have shape : ∀ d : Bytes, allDigits d → ¬ (∀ c ∈ d, c = 57) →
      ∃ q c k, 48 ≤ c ∧ c ≤ 56 ∧ d = q ++ c :: List.replicate k 57 ∧
        incDecimal d = some (q ++ (c + 1) :: List.replicate k 48) := by
    intro d hd hn9
    rcases nines_or_carry d with ⟨m, rfl⟩ | ⟨q, c, k, hc, rfl⟩
    · exact absurd (all_replicate 57 m) hn9
    · have hc' := (allDigits_cons.1 (allDigits_append.1 hd).2).1
      refine ⟨q, c, k, hc'.1, by omega, rfl, ?_⟩
      rw [incDecimal_carry q c k hc]
      have : (c + 1) % 256 = c + 1 := by omega
      rw [this]
  refine ⟨?_, ?_⟩
  · intro d1 d2 _ h1 n1 _ h2 n2 he
    obtain ⟨q1, c1, k1, _, _, rfl, e1⟩ := shape d1 h1 n1
    obtain ⟨q2, c2, k2, _, _, rfl, e2⟩ := shape d2 h2 n2
    rw [e1, e2] at he
    simp only [Option.some.injEq] at he
    obtain ⟨hq, hc, hk⟩ := run_unique 48 k1 k2 q1 q2 (c1 + 1) (c2 + 1) (by omega) (by omega) he
    have : c1 = c2 := by omega
    rw [hq, this, hk]
  · intro r
    constructor
    · rintro ⟨d, hl, hd, hn9, hr⟩
      obtain ⟨q, c, k, hc1, hc2, rfl, e⟩ := shape d hd hn9
      rw [e] at hr
      simp only [Option.some.injEq] at hr
      subst hr
      refine ⟨by simpa using hl, ?_, not_all_of_carry (by omega)⟩
      exact allDigits_append.2 ⟨(allDigits_append.1 hd).1,
        allDigits_cons.2 ⟨by omega, allDigits_zeros k⟩⟩
    · rintro ⟨hl, hr, hn0⟩
      rcases run_or_last 48 r with ⟨m, rfl⟩ | ⟨q, c, k, hc, rfl⟩
      · exact absurd (all_replicate 48 m) hn0
      · have hc' := (allDigits_cons.1 (allDigits_append.1 hr).2).1
        refine ⟨q ++ (c - 1) :: List.replicate k 57, by simpa using hl, ?_,
          not_all_of_carry (by omega), ?_⟩
        · refine allDigits_append.2
            ⟨(allDigits_append.1 hr).1, allDigits_cons.2 ⟨by omega, ?_⟩⟩
          intro x hx
          rw [List.eq_of_mem_replicate hx]; omega
        · rw [incDecimal_carry q (c - 1) k (by omega)]
          have : (c - 1 + 1) % 256 = c := by omega
          rw [this]

/-- C11 at length 3: `"129"` and `"130"`. -/
theorem incDecimal_bijection_witness :
    ((∃ d : Bytes, d.length = 3 ∧ allDigits d ∧ ¬ (∀ c ∈ d, c = 57) ∧
        incDecimal d = some (str "130")) ↔
      ((str "130").length = 3 ∧ allDigits (str "130") ∧ ¬ (∀ c ∈ str "130", c = 48))) ∧
    (incDecimal (str "129") = incDecimal (str "129") → str "129" = str "129") :=
  ⟨(incDecimal_bijection 3).2 (str "130"),
   (incDecimal_bijection 3).1 (str "129") (str "129") (by decide) (by decide) (by decide)
     (by decide) (by decide) (by decide)⟩


/-- C12, as the code has it: for every release `"vX.Y.Z"`, with or without build
metadata B, the canonical form `PseudoVersion` works with is `"vX.Y.Z"`, the
leading `"v"` kept and the build metadata dropped; its pre-release label is
empty, and the build suffix is B (empty for `"vX.Y.Z"` itself). -/
theorem Canonical_keeps_v (X Y Z : Nat) (B : Bytes) (hB : B = [] ∨ validBuild B) :
    Canonical (str "v" ++ dec X ++ str "." ++ dec Y ++ str "." ++ dec Z ++ B)
      = str "v" ++ dec X ++ str "." ++ dec Y ++ str "." ++ dec Z ∧
    Prerelease (Canonical (str "v" ++ dec X ++ str "." ++ dec Y ++ str "." ++ dec Z ++ B)) = [] ∧
    Build (str "v" ++ dec X ++ str "." ++ dec Y ++ str "." ++ dec Z ++ B) = B := by
  have hp := parse_version (dec X) (dec Y) (dec Z) [] B (dec_isNumeral X) (dec_isNumeral Y)
    (dec_isNumeral Z) (Or.inl rfl) hB
  obtain ⟨hC, hBd, hP⟩ := classify hp
  simp only [version, List.append_nil] at hC hBd hP
  exact ⟨hC, hP, hBd⟩

/-- C12 at `"v1.2.3"`. -/
theorem Canonical_keeps_v_witness :
    Canonical (str "v" ++ dec 1 ++ str "." ++ dec 2 ++ str "." ++ dec 3 ++ [])
      = str "v" ++ dec 1 ++ str "." ++ dec 2 ++ str "." ++ dec 3 ∧
    Prerelease (Canonical (str "v" ++ dec 1 ++ str "." ++ dec 2 ++ str "." ++ dec 3 ++ [])) = [] ∧
    Build (str "v" ++ dec 1 ++ str "." ++ dec 2 ++ str "." ++ dec 3 ++ []) = [] :=
  Canonical_keeps_v 1 2 3 [] (Or.inl rfl)

/-- C12 as stated fails: the canonical form of `"v1.2.3"` is `"v1.2.3"`, not
`"1.2.3"`. -/
theorem Canonical_v123 :
    Canonical (str "v1.2.3") = str "v1.2.3" ∧ Canonical (str "v1.2.3") ≠ str "1.2.3" := by
  decide

/-- C13, as the code has it: the leading `"v"` is required.  An `older` that
does not start with `"v"` has the empty canonical form, and `PseudoVersion`
returns Form 1, `m ++ ".0.0-" ++ segment`. -/
theorem PseudoVersion_needs_v (major older : Bytes) (t : Time) (rev : Bytes)
    (h : older.head? ≠ some 118) :
    Canonical older = [] ∧
    PseudoVersion major older t rev
      = some ((if major = [] then str "v0" else major) ++ str ".0.0-"
          ++ (t.UTC.Format ++ str "-" ++ rev)) := by
  have hp := parse_no_v older h
  exact ⟨by simp [Canonical, hp], PseudoVersion_invalid major older t rev hp⟩

/-- C13 at `older = "1.2.3-rc.1+meta"`. -/
theorem PseudoVersion_needs_v_witness :
    Canonical (str "1.2.3-rc.1+meta") = [] ∧
    PseudoVersion (str "v1") (str "1.2.3-rc.1+meta") t2023 (str "abc")
      = some ((if str "v1" = [] then str "v0" else str "v1") ++ str ".0.0-"
          ++ (t2023.UTC.Format ++ str "-" ++ str "abc")) :=
  PseudoVersion_needs_v (str "v1") (str "1.2.3-rc.1+meta") t2023 (str "abc") (by decide)

/-- C13 as stated fails: `"1.2.3"` has the empty canonical form and
`PseudoVersion` falls back to Form 1 on it. -/
theorem PseudoVersion_without_v :
    Canonical (str "1.2.3") = [] ∧
    PseudoVersion (str "") (str "1.2.3") t2023 (str "abcdef012345")
      = some (str "v0.0.0-20230102030405-abcdef012345") := by
  decide

/-- C14: `PseudoVersion` returns a string on every input; when the release
branch is taken, the index `i` after the last `"."` of the canonical form is
within it, and what follows, the argument of `incDecimal`, is a non-empty
string of decimal digits, on which `incDecimal` returns; `incDecimal` on the
empty string does not. -/
theorem PseudoVersion_total :
    (∀ (major older : Bytes) (t : Time) (rev : Bytes),
      ∃ pv, PseudoVersion major older t rev = some pv) ∧
    (∀ older : Bytes, Canonical older ≠ [] → Prerelease (Canonical older) = [] →
      (LastIndex (Canonical older) 46 + 1).toNat ≤ (Canonical older).length ∧
      (Canonical older).drop (LastIndex (Canonical older) 46 + 1).toNat ≠ [] ∧
      allDigits ((Canonical older).drop (LastIndex (Canonical older) 46 + 1).toNat) ∧
      ∃ q, incDecimal ((Canonical older).drop (LastIndex (Canonical older) 46 + 1).toNat)
        = some q) ∧
    incDecimal [] = none := by
  refine ⟨?_, ?_, by decide⟩
  · intro major older t rev
    cases hp : parse older with
    | none => exact ⟨_, PseudoVersion_invalid major older t rev hp⟩
    | some p =>
      obtain ⟨_, _, n3, _, _, _⟩ := parse_inv hp
      obtain ⟨q, hq, _⟩ := incDecimal_numeral n3
      rw [PseudoVersion_valid major older t rev hp, hq]
      by_cases hpre : p.prerelease = []
      · rw [if_neg (by simp [hpre])]; exact ⟨_, rfl⟩
      · rw [if_pos hpre]; exact ⟨_, rfl⟩
  · intro older hC hPre
    cases hp : parse older with
    | none => exact absurd (by simp [Canonical, hp]) hC
    | some p =>
      obtain ⟨_, _, n3, _, _, _⟩ := parse_inv hp
      obtain ⟨hCe, _, hPe⟩ := classify hp
      rw [hPre] at hPe
      have e : Canonical older = (118 :: (p.major ++ 46 :: p.minor)) ++ 46 :: p.patch := by
        rw [hCe, version_eq, ← hPe]; simp
      obtain ⟨q, hq, _⟩ := incDecimal_numeral n3
      have e2 : (((118 :: (p.major ++ 46 :: p.minor)).length : Int) + 1).toNat
          = ((118 :: (p.major ++ 46 :: p.minor)) ++ [46]).length := by
        simp
        omega
      have e3 : (118 :: (p.major ++ 46 :: p.minor)) ++ 46 :: p.patch
          = ((118 :: (p.major ++ 46 :: p.minor)) ++ [46]) ++ p.patch := by simp
      rw [e, LastIndex_dot _ _ n3.2.1, e2, e3, List.drop_left]
      exact ⟨by simp, n3.1, n3.2.1, q, hq⟩

/-- C14 at `older = "v1.2.9+meta"`: the patch handed to `incDecimal`. -/
theorem PseudoVersion_total_witness :
    (LastIndex (Canonical (str "v1.2.9+meta")) 46 + 1).toNat
      ≤ (Canonical (str "v1.2.9+meta")).length ∧
    (Canonical (str "v1.2.9+meta")).drop (LastIndex (Canonical (str "v1.2.9+meta")) 46 + 1).toNat
      ≠ [] ∧
    allDigits ((Canonical (str "v1.2.9+meta")).drop
      (LastIndex (Canonical (str "v1.2.9+meta")) 46 + 1).toNat) ∧
    ∃ q, incDecimal ((Canonical (str "v1.2.9+meta")).drop
      (LastIndex (Canonical (str "v1.2.9+meta")) 46 + 1).toNat) = some q :=
  PseudoVersion_total.2.1 (str "v1.2.9+meta") (by decide) (by decide)


/-- C16: two times that denote the same instant, whatever their zone offsets,
give the same pseudo-version: the output depends on the instant only. -/
theorem PseudoVersion_same_instant (major older rev : Bytes) (t1 t2 : Time)
    (h : t1.sec = t2.sec) :
    PseudoVersion major older t1 rev = PseudoVersion major older t2 rev := by
  have e : t1.UTC = t2.UTC := by simp [Time.UTC, h]
  unfold PseudoVersion
  rw [e]

/-- C16 at 2023-01-02T03:04:05Z, held in UTC and in a zone five hours west of
it; formatted without the normalisation the two would differ. -/
theorem PseudoVersion_same_instant_witness :
    PseudoVersion (str "") (str "v1.2.3") t2023 (str "abc")
      = PseudoVersion (str "") (str "v1.2.3") ⟨1672628645, -18000⟩ (str "abc") ∧
    t2023.Format ≠ (⟨1672628645, -18000⟩ : Time).Format :=
  ⟨PseudoVersion_same_instant (str "") (str "v1.2.3") (str "abc") t2023 ⟨1672628645, -18000⟩
    (by decide), by decide⟩

/-- C17: `AllHex rev` is true exactly when every byte of `rev` is one of
`'0'..'9'`, `'a'..'f'`; so it is true of the empty string and false as soon as
`rev` holds an upper-case `'A'..'F'` or any other byte. -/
theorem AllHex_spec :
    (∀ rev : Bytes, AllHex rev = true ↔ ∀ c ∈ rev, lowerHex c) ∧
    AllHex [] = true ∧
    (∀ (rev : Bytes) (c : Nat), c ∈ rev → 65 ≤ c ∧ c ≤ 70 → AllHex rev = false) ∧
    (∀ (rev : Bytes) (c : Nat), c ∈ rev → ¬ lowerHex c → AllHex rev = false) := by
  have other : ∀ (rev : Bytes) (c : Nat), c ∈ rev → ¬ lowerHex c → AllHex rev = false := by
    intro rev c hc hn
    cases h : AllHex rev with
    | false => rfl
    | true => exact absurd ((AllHex_iff rev).1 h c hc) hn
  refine ⟨AllHex_iff, rfl, ?_, other⟩
  intro rev c hc hu
  apply other rev c hc
  unfold lowerHex
  omega

/-- C17 at `"00ff"`, at `"00FF"` and at `"00fg"`. -/
theorem AllHex_spec_witness :
    (AllHex (str "00ff") = true ↔ ∀ c ∈ str "00ff", lowerHex c) ∧
    AllHex (str "00FF") = false ∧ AllHex (str "00fg") = false :=
  ⟨AllHex_spec.1 (str "00ff"), AllHex_spec.2.2.1 (str "00FF") 70 (by decide) (by decide),
   AllHex_spec.2.2.2 (str "00fg") 103 (by decide) (by decide)⟩

/-- C18: `ShortenSHA1` is idempotent, and a revision of 12 bytes is returned
unchanged. -/
theorem ShortenSHA1_idempotent :
    (∀ r : Bytes, ShortenSHA1 (ShortenSHA1 r) = ShortenSHA1 r) ∧
    (∀ r : Bytes, r.length = 12 → ShortenSHA1 r = r) := by
  have short : ∀ r : Bytes, r.length ≠ 40 → ShortenSHA1 r = r := by
    intro r h
    rw [ShortenSHA1_eq, if_neg (fun hh => h hh.1)]
  refine ⟨?_, fun r h => short r (by omega)⟩
  intro r
  by_cases h : r.length = 40 ∧ ∀ c ∈ r, lowerHex c
  · have e : ShortenSHA1 r = r.take 12 := by rw [ShortenSHA1_eq, if_pos h]
    rw [e]
    apply short
    rw [List.length_take, h.1]
    decide
  · have e : ShortenSHA1 r = r := by rw [ShortenSHA1_eq, if_neg h]
    rw [e, e]

/-- C18 at a 40-digit hash and at its 12-byte prefix. -/
theorem ShortenSHA1_idempotent_witness :
    ShortenSHA1 (ShortenSHA1 (str "0123456789abcdef0123456789abcdef01234567"))
      = ShortenSHA1 (str "0123456789abcdef0123456789abcdef01234567") ∧
    ShortenSHA1 (str "0123456789ab") = str "0123456789ab" :=
  ⟨ShortenSHA1_idempotent.1 (str "0123456789abcdef0123456789abcdef01234567"),
   ShortenSHA1_idempotent.2 (str "0123456789ab") (by decide)⟩

/-- C19: when `older` is a valid semantic version the result does not depend on
`major`: the major version of the output is that of `older` (major `"v2"` with
older `"v1.2.3"` gives a `"v1.2.4-0. ..."` version); with no usable `older` the
major does show in the output. -/
theorem PseudoVersion_major_ignored :
    (∀ (older : Bytes), IsValid older = true → ∀ (major1 major2 : Bytes) (t : Time)
      (rev : Bytes), PseudoVersion major1 older t rev = PseudoVersion major2 older t rev) ∧
    PseudoVersion (str "v2") (str "v1.2.3") t2023 (str "abcdef012345")
      = some (str "v1.2.4-0.20230102030405-abcdef012345") ∧
    PseudoVersion (str "v2") (str "") t2023 (str "abcdef012345")
      = some (str "v2.0.0-20230102030405-abcdef012345") ∧
    PseudoVersion (str "v3") (str "") t2023 (str "abcdef012345")
      = some (str "v3.0.0-20230102030405-abcdef012345") := by
  refine ⟨?_, by decide, by decide, by decide⟩
  intro older hv major1 major2 t rev
  obtain ⟨p, hp⟩ := parse_of_IsValid hv
  rw [PseudoVersion_valid major1 older t rev hp, PseudoVersion_valid major2 older t rev hp]

/-- C19 at `older = "v1.2.3-rc.1"`, majors `"v2"` and `"v5"`. -/
theorem PseudoVersion_major_ignored_witness :
    PseudoVersion (str "v2") (str "v1.2.3-rc.1") t2023 (str "abc")
      = PseudoVersion (str "v5") (str "v1.2.3-rc.1") t2023 (str "abc") :=
  PseudoVersion_major_ignored.1 (str "v1.2.3-rc.1") (by decide) (str "v2") (str "v5") t2023
    (str "abc")


/-- C15, as the code has it: with `ts` the UTC formatting of `t` and B the build
suffix of `older`, the output ends with `ts ++ "-" ++ rev ++ B`; in Form 1
(`older` invalid, B empty) `ts` follows `"-"`, in the other forms it follows
`"."`; and `ts` is exactly 14 decimal digits when `t` lies between
0000-01-01T00:00:00Z and 9999-12-31T23:59:59Z. -/
theorem PseudoVersion_segment :
    (∀ (major older : Bytes) (t : Time) (rev : Bytes), IsValid older = false →
      Build older = [] ∧
      PseudoVersion major older t rev
        = some ((if major = [] then str "v0" else major) ++ str ".0.0" ++ str "-"
            ++ t.UTC.Format ++ str "-" ++ rev ++ Build older)) ∧
    (∀ (major older : Bytes) (t : Time) (rev : Bytes), IsValid older = true →
      ∃ front, PseudoVersion major older t rev
        = some (front ++ str "." ++ t.UTC.Format ++ str "-" ++ rev ++ Build older)) ∧
    (∀ t : Time, -62167219200 ≤ t.sec → t.sec ≤ 253402300799 →
      t.UTC.Format.length = 14 ∧ allDigits t.UTC.Format) := by
  refine ⟨?_, ?_, Format_width⟩
  · intro major older t rev h
    have hp : parse older = none := by
      cases hq : parse older with
      | none => rfl
      | some p => simp [IsValid, hq] at h
    have hb : Build older = [] := by simp [Build, hp]
    refine ⟨hb, ?_⟩
    rw [PseudoVersion_invalid major older t rev hp, hb]
    simp [segment, str]
  · intro major older t rev h
    obtain ⟨p, hp⟩ := parse_of_IsValid h
    obtain ⟨_, _, n3, _, _, _⟩ := parse_inv hp
    obtain ⟨q, hq, _⟩ := incDecimal_numeral n3
    obtain ⟨_, hb, _⟩ := classify hp
    rw [PseudoVersion_valid major older t rev hp, hq, hb]
    by_cases hpre : p.prerelease = []
    · rw [if_neg (by simp [hpre])]
      refine ⟨str "v" ++ p.major ++ str "." ++ p.minor ++ str "." ++ q ++ str "-0", ?_⟩
      simp [version, segment, str]
    · rw [if_pos hpre]
      refine ⟨version p.major p.minor p.patch p.prerelease [] ++ str ".0", ?_⟩
      simp [segment, str]

/-- C15 at 2023-01-02T03:04:05Z: the timestamp has 14 digits. -/
theorem PseudoVersion_segment_witness :
    t2023.UTC.Format.length = 14 ∧ allDigits t2023.UTC.Format :=
  PseudoVersion_segment.2.2 t2023 (by decide) (by decide)

/-- C15 as stated fails: at 10000-01-01T00:00:00Z the timestamp written into
the pseudo-version has 15 digits, and one second before 0000-01-01T00:00:00Z
it starts with `'-'`. -/
theorem PseudoVersion_segment_year_10000 :
    (PseudoVersion (str "") (str "") ⟨253402300800, 0⟩ (str "abc")
        = some (str "v0.0.0-100000101000000-abc") ∧
      (Time.UTC ⟨253402300800, 0⟩).Format = str "100000101000000" ∧
      (Time.UTC ⟨253402300800, 0⟩).Format.length = 15) ∧
    (Time.UTC ⟨-62167219201, 0⟩).Format = str "-00011231235959" := by
  decide


end ModResolve
